import Mathlib

/-!
The program `spmc_101`: a single producer and several consumers around a closable
container.  A shallow embedding of `src/spmc_101.cpp`.

* `std::string` is a `List Char`; `std::vector<T>` is a `List T` in index order, so
  `push_back` appends at the end, `back` is the last element and `pop_back` drops it.
* Every method of `ConcurrentQueue` runs under `m_guard_`, so each call is one atomic
  transition of the pair (`m_is_closed_`, `m_events_`).
* `m_signaller_.wait` suspends the caller; a call that reaches it is reported as
  `PullOutcome.waiting`.  A woken waiter re-evaluates the loop condition under the lock,
  so resuming behaves as a fresh call on the state found at wake-up.
-/

/-! ## Definitions -/

/-- The struct `BrowsingEvent`. -/
structure BrowsingEvent where
  m_device : List Char
  m_url : List Char
  m_timestamp : List Char
deriving DecidableEq, Repr

/-- The data members of `ConcurrentQueue` that carry state. -/
structure ConcurrentQueue where
  m_is_closed_ : Bool
  m_events_ : List BrowsingEvent
deriving DecidableEq, Repr

/-- What a call of `pull_one` does: it returns `rv` with the caller's record and the new
container state, or it suspends in `m_signaller_.wait`. -/
inductive PullOutcome where
  | returned (rv : Bool) (event : BrowsingEvent) (q : ConcurrentQueue)
  | waiting
deriving DecidableEq, Repr

namespace ConcurrentQueue

/-- The constructor `ConcurrentQueue()`. -/
def init : ConcurrentQueue := { m_is_closed_ := false, m_events_ := [] }

/-- The method `close_queue`. -/
def close_queue (q : ConcurrentQueue) : ConcurrentQueue :=
  { q with m_is_closed_ := true }

/-- The method `push`. -/
def push (q : ConcurrentQueue) (event : BrowsingEvent) : ConcurrentQueue :=
  { q with m_events_ := q.m_events_ ++ [event] }

/-- The method `pull_one`; `event` is the caller's output record. -/
def pull_one (q : ConcurrentQueue) (event : BrowsingEvent) : PullOutcome :=
  if !q.m_events_.isEmpty then
    .returned true (q.m_events_.getLastD event) { q with m_events_ := q.m_events_.dropLast }
  else if !q.m_is_closed_ && q.m_events_.isEmpty then
    .waiting
  else if !q.m_events_.isEmpty then
    .returned true (q.m_events_.getLastD event) { q with m_events_ := q.m_events_.dropLast }
  else
    .returned false event q

end ConcurrentQueue

/-- A caller making `k` calls of `pull_one` in a row with the same output record: the
return value and output record after each call and the final container state, or `none`
when one of the calls suspends. -/
def pull_times : Nat → ConcurrentQueue → BrowsingEvent →
    Option (List (Bool × BrowsingEvent) × ConcurrentQueue)
  | 0, q, _ => some ([], q)
  | k + 1, q, event =>
    match q.pull_one event with
    | .waiting => none
    | .returned rv event' q' =>
      (pull_times k q' event').map fun r => ((rv, event') :: r.1, r.2)

/-! ### Regular expressions

The patterns of the program use literals, bracket classes, `.`, the greedy quantifiers
`+`, `*`, `?`, `{n}` and capture groups.  `Rx.run` is the backtracking matcher of the
ECMAScript grammar: it lists, in priority order, every way of matching a prefix of the
input, as the unread rest of the input and the captures made. -/

/-- Abstract syntax of the patterns. -/
inductive Rx where
  | eps
  | cls (p : Char → Bool)
  | seq (a b : Rx)
  | alt (a b : Rx)
  | star (a : Rx)
  | group (i : Nat) (a : Rx)

/-- The captures of a match: group number and captured text, latest first. -/
abbrev Caps := List (Nat × List Char)

namespace Rx

/-- A literal character. -/
def chr (c : Char) : Rx := cls fun x => x == c

/-- A negated bracket class of one character, `[^c]`. -/
def notc (c : Char) : Rx := cls fun x => x != c

/-- The pattern `[[:alnum:]]`, in the "C" locale. -/
def alnum : Rx := cls Char.isAlphanum

/-- The pattern `[[:digit:]]`. -/
def digit : Rx := cls Char.isDigit

/-- The pattern `.`: any character except the line terminators LF and CR. -/
def any : Rx := cls fun x => x != '\n' && x != '\r'

/-- A literal string. -/
def str : List Char → Rx
  | [] => eps
  | c :: cs => seq (chr c) (str cs)

/-- Concatenation of a list of patterns. -/
def cat : List Rx → Rx
  | [] => eps
  | a :: as => seq a (cat as)

/-- The greedy quantifier `+`. -/
def plus (a : Rx) : Rx := seq a (star a)

/-- The greedy quantifier `?`. -/
def opt (a : Rx) : Rx := alt a eps

/-- The quantifier `{n}`. -/
def rep : Nat → Rx → Rx
  | 0, _ => eps
  | n + 1, a => seq a (rep n a)

/-- The number of capture groups of a pattern. -/
def mark_count : Rx → Nat
  | eps => 0
  | cls _ => 0
  | seq a b => mark_count a + mark_count b
  | alt a b => mark_count a + mark_count b
  | star a => mark_count a
  | group _ a => mark_count a + 1

/-- Greedy iteration of `step`: one more round first, stopping second; a round that
consumes nothing is rejected. -/
def starRun (step : List Char → Caps → List (List Char × Caps)) :
    Nat → List Char → Caps → List (List Char × Caps)
  | 0, s, c => [(s, c)]
  | n + 1, s, c =>
    (((step s c).filter fun r => r.1.length < s.length).flatMap fun r => starRun step n r.1 r.2)
      ++ [(s, c)]

/-- All matches of a prefix of `s`, in priority order. -/
def run : Rx → List Char → Caps → List (List Char × Caps)
  | eps, s, c => [(s, c)]
  | cls p, s, c =>
    match s with
    | [] => []
    | x :: xs => if p x then [(xs, c)] else []
  | seq a b, s, c => (run a s c).flatMap fun r => run b r.1 r.2
  | alt a b, s, c => run a s c ++ run b s c
  | star a, s, c => starRun (run a) s.length s c
  | group i a, s, c =>
    (run a s c).map fun r => (r.1, (i, s.take (s.length - r.1.length)) :: r.2)

end Rx

/-- The texts a pattern matches as a whole. -/
def Rx.lang : Rx → List Char → Prop
  | .eps, w => w = []
  | .cls p, w => ∃ c, p c = true ∧ w = [c]
  | .seq a b, w => ∃ u v, Rx.lang a u ∧ Rx.lang b v ∧ w = u ++ v
  | .alt a b, w => Rx.lang a w ∨ Rx.lang b w
  | .star a, w => ∃ ws : List (List Char), (∀ u ∈ ws, Rx.lang a u) ∧ w = ws.flatten
  | .group _ a, w => Rx.lang a w

/-- No class of the pattern accepts the character `x`. -/
def Rx.excludes (x : Char) : Rx → Bool
  | .eps => true
  | .cls p => !p x
  | .seq a b => Rx.excludes x a && Rx.excludes x b
  | .alt a b => Rx.excludes x a && Rx.excludes x b
  | .star a => Rx.excludes x a
  | .group _ a => Rx.excludes x a

/-- The call `std::regex_match(str, m, pattern)`: the captures of the first match of the
whole of `str`, or `none` when there is no such match. -/
def regex_match (str : List Char) (pattern : Rx) : Option Caps :=
  ((pattern.run str []).find? fun r => r.1.isEmpty).map fun r => r.2

/-- The text of `m[i]` for a capture group `i`; empty when the group did not take part. -/
def sub_match (m : Caps) (i : Nat) : List Char := (m.lookup i).getD []

/-! ### The input stream -/

/-- The state of `std::istream` that `eof` and `std::getline` read and write: the
characters not yet extracted and the state bits. -/
structure IStream where
  buf : List Char
  eofbit : Bool
  failbit : Bool
deriving DecidableEq, Repr

namespace IStream

/-- A stream over `input` on which nothing has been read yet. -/
def fresh (input : List Char) : IStream := { buf := input, eofbit := false, failbit := false }

/-- The method `good`. -/
def good (is : IStream) : Bool := !is.eofbit && !is.failbit

/-- The method `eof`. -/
def eof (is : IStream) : Bool := is.eofbit

end IStream

/-- The call `std::getline(is, str)`.  When the stream is not good the sentry sets
`failbit` and `str` is left as it was.  Otherwise `str` is erased and characters are
appended up to the delimiter LF, which is extracted and dropped, or up to the end of the
input, which sets `eofbit`, and `failbit` too when nothing was extracted. -/
def getline (is : IStream) (str : List Char) : IStream × List Char :=
  if !is.good then
    ({ is with failbit := true }, str)
  else
    let line := is.buf.takeWhile fun c => c != '\n'
    match is.buf.dropWhile fun c => c != '\n' with
    | [] => ({ buf := [], eofbit := true, failbit := line.isEmpty }, line)
    | _ :: rest => ({ is with buf := rest }, line)

/-! ### The counter -/

/-- The class `Storage`; `m_count_` is a 64-bit unsigned counter. -/
structure Storage where
  m_count_ : Nat
deriving DecidableEq, Repr

namespace Storage

/-- The constructor `Storage()`. -/
def init : Storage := { m_count_ := 0 }

/-- The method `get_count`. -/
def get_count (s : Storage) : Nat := s.m_count_

/-- The method `increase_count`. -/
def increase_count (s : Storage) : Storage := { m_count_ := (s.m_count_ + 1) % 2 ^ 64 }

end Storage

/-! ### The producer -/

/-- The class `Producer`: the input stream and the container it writes to. -/
structure Producer where
  m_input_ : IStream
  m_queue_ : ConcurrentQueue
deriving DecidableEq, Repr

namespace Producer

/-- The pattern `device: [[:alnum:]]{2}(\-[[:alnum:]]{2}){5}`. -/
def device_pattern : Rx :=
  .cat [.str "device: ".toList, .rep 2 .alnum,
        .rep 5 (.group 1 (.cat [.chr '-', .rep 2 .alnum]))]

/-- The pattern `timestamp: [[:digit:]]+`. -/
def timestamp_pattern : Rx :=
  .cat [.str "timestamp: ".toList, .plus .digit]

/-- The pattern `url: [^:]+://[^/]+(:[[:digit:]]+)?(/(.*))?`. -/
def url_pattern : Rx :=
  .cat [.str "url: ".toList, .plus (.notc ':'), .str "://".toList, .plus (.notc '/'),
        .opt (.group 1 (.cat [.chr ':', .plus .digit])),
        .opt (.group 2 (.cat [.chr '/', .group 3 (.star .any)]))]

/-- The function `is_valid_device_`. -/
def is_valid_device_ (str : List Char) : Bool := (regex_match str device_pattern).isSome

/-- The function `is_valid_timestamp_`. -/
def is_valid_timestamp_ (str : List Char) : Bool := (regex_match str timestamp_pattern).isSome

/-- The function `is_valid_url_`. -/
def is_valid_url_ (str : List Char) : Bool := (regex_match str url_pattern).isSome

/-- The method `publish`. -/
def publish (p : Producer) (device url timestamp : List Char) : Producer :=
  { p with m_queue_ := p.m_queue_.push ⟨device, url, timestamp⟩ }

/-- The local variables of `run` that live across iterations of its loop. -/
structure Lines where
  first_line : List Char
  second_line : List Char
  third_line : List Char
deriving DecidableEq, Repr

/-- One pass through the body of the loop of `run`; each `continue` ends the pass. -/
def body (p : Producer) (v : Lines) : Producer × Lines :=
  let r1 := getline p.m_input_ v.first_line
  let v := { v with first_line := r1.2 }
  if !is_valid_device_ v.first_line then
    ({ p with m_input_ := r1.1 }, v)
  else
    let r2 := getline r1.1 v.second_line
    let v := { v with second_line := r2.2 }
    if !is_valid_url_ v.second_line then
      ({ p with m_input_ := r2.1 }, v)
    else
      let r3 := getline r2.1 v.third_line
      let v := { v with third_line := r3.2 }
      if !is_valid_timestamp_ v.third_line then
        ({ p with m_input_ := r3.1 }, v)
      else
        (publish { p with m_input_ := r3.1 } v.first_line v.second_line v.third_line, v)

/-- The loop `while (!m_input_.eof()) ...` of `run`, for at most `fuel` evaluations of
its condition; `none` when the loop has not been left by then. -/
def run_loop : Nat → Producer → Lines → Option (Producer × Lines)
  | 0, _, _ => none
  | fuel + 1, p, v =>
    if p.m_input_.eof then
      some (p, v)
    else
      run_loop fuel (body p v).1 (body p v).2

/-- The method `run`: the loop, started with empty line buffers, then `close_queue`.  On
a stream that starts good the loop condition is evaluated at most two more times than
there are characters to read; `none` when the loop is not left within that bound. -/
def run (p : Producer) : Option Producer :=
  (run_loop (p.m_input_.buf.length + 2) p ⟨[], [], []⟩).map fun r =>
    { r.1 with m_queue_ := r.1.m_queue_.close_queue }

/-- The container after a producer has run over the whole of `input`, starting from a
new container and with nothing pulled. -/
def output (input : List Char) : Option ConcurrentQueue :=
  (run ⟨IStream.fresh input, ConcurrentQueue.init⟩).map fun p => p.m_queue_

end Producer

/-- The records a producer pushes when it runs over the whole of `input`, in the order
of the pushes. -/
def published (input : List Char) : Option (List BrowsingEvent) :=
  (Producer.output input).map fun q => q.m_events_

/-- The lines of the records of a list, three for each record. -/
def record_lines : List BrowsingEvent → List (List Char)
  | [] => []
  | r :: rs => r.m_device :: r.m_url :: r.m_timestamp :: record_lines rs

/-- The number of lines of a text: the line feeds, and one more for a last line that is
not empty and not ended by a line feed. -/
def line_count (input : List Char) : Nat :=
  input.count '\n' + (if input.getLast? = none ∨ input.getLast? = some '\n' then 0 else 1)

/-- The state bits of a stream as `getline` leaves them: `failbit` only with `eofbit`. -/
def IStream.wf (is : IStream) : Prop := is.failbit = true → is.eofbit = true

/-- A bound on the number of times the loop of `run` can still find `eof` false. -/
def IStream.steps (is : IStream) : Nat := if is.eofbit then 0 else is.buf.length + 1

/-- The number of calls of `getline` that can still read a line from a stream. -/
def IStream.avail (is : IStream) : Nat := if is.good then line_count is.buf else 0

/-- The producer `p` writing to a container that already held the records `l`, with
closed flag `c`, before the records `p` has in its own. -/
def Producer.rebase (c : Bool) (l : List BrowsingEvent) (p : Producer) : Producer :=
  { p with m_queue_ := ⟨c, l ++ p.m_queue_.m_events_⟩ }

/-- Two settings of the line buffers that no later pass of the loop can tell apart: a
pass reads the second and third buffers without writing them first only when the stream
is at its end, and then either both settings fail the timestamp check, or the third
buffers are equal and the second buffers are equal or both fail the url check. -/
def Producer.stale_equiv (v1 v2 : Producer.Lines) : Prop :=
  (Producer.is_valid_timestamp_ v1.third_line = false
      ∧ Producer.is_valid_timestamp_ v2.third_line = false)
    ∨ (v1.third_line = v2.third_line
      ∧ (v1.second_line = v2.second_line
        ∨ (Producer.is_valid_url_ v1.second_line = false
          ∧ Producer.is_valid_url_ v2.second_line = false)))

/-- The text of `lines`, each line ended by LF. -/
def unlines : List (List Char) → List Char
  | [] => []
  | l :: ls => l ++ '\n' :: unlines ls

/-- The text of `lines` with LF between lines and none after the last. -/
def join_lines : List (List Char) → List Char
  | [] => []
  | [l] => l
  | l :: ls => l ++ '\n' :: join_lines ls

/-! ### The grammars of the three fields, as the specification words them -/

/-- The device grammar: `device: ` and six groups of two alphanumeric characters with a
single hyphen between groups. -/
def device_grammar (s : List Char) : Prop :=
  ∃ groups : List (List Char), groups.length = 6
    ∧ (∀ g ∈ groups, g.length = 2 ∧ ∀ c ∈ g, c.isAlphanum = true)
    ∧ s = "device: ".toList ++ ['-'].intercalate groups

/-- The URL grammar: `url: `, a non-empty scheme without a colon, `://`, a non-empty
authority without a slash, and optionally a slash and a path on the same line. -/
def url_grammar (s : List Char) : Prop :=
  ∃ scheme authority : List Char, scheme ≠ [] ∧ ':' ∉ scheme
    ∧ authority ≠ [] ∧ '/' ∉ authority
    ∧ (s = "url: ".toList ++ scheme ++ "://".toList ++ authority
        ∨ ∃ path : List Char, (∀ c ∈ path, c ≠ '\n' ∧ c ≠ '\r')
            ∧ s = "url: ".toList ++ scheme ++ "://".toList ++ authority ++ '/' :: path)

/-- The timestamp grammar: `timestamp: ` and one or more decimal digits. -/
def timestamp_grammar (s : List Char) : Prop :=
  ∃ digits : List Char, digits ≠ [] ∧ (∀ c ∈ digits, c.isDigit = true)
    ∧ s = "timestamp: ".toList ++ digits

/-! ### Sample lines -/

/-- The device line of scenarios A and B. -/
def sample_device : List Char := "device: ab-cd-ef-12-34-56".toList

/-- The url line of scenario A. -/
def sample_url : List Char := "url: http://www.xxxsite.com/page".toList

/-- The timestamp line of scenarios A and B. -/
def sample_timestamp : List Char := "timestamp: 1700000000".toList

/-- A second device line. -/
def other_device : List Char := "device: 11-22-33-44-55-66".toList

/-! ### The consumer -/

namespace Consumer

/-- The list `m_offending_words_` of `is_questionable`. -/
def m_offending_words_ : List (List Char) :=
  ["porn".toList, "xxx".toList, "sex".toList, "Bieber".toList]

/-- The pattern `url: [^:]+://([^/]+)(/(.*))?`. -/
def general_split_pattern : Rx :=
  .cat [.str "url: ".toList, .plus (.notc ':'), .str "://".toList,
        .group 1 (.plus (.notc '/')),
        .opt (.group 2 (.cat [.chr '/', .group 3 (.star .any)]))]

/-- The pattern `([^@]+@)?([^:]+)(:[[:digit:]]+)?`. -/
def authority_split_pattern : Rx :=
  .cat [.opt (.group 1 (.cat [.plus (.notc '@'), .chr '@'])),
        .group 2 (.plus (.notc ':')),
        .opt (.group 3 (.cat [.chr ':', .plus .digit]))]

/-- The function `get_domain`; the size of a `match_results` is one more than the number
of capture groups of the pattern. -/
def get_domain (url_input : List Char) : List Char :=
  let authority : List Char :=
    match regex_match url_input general_split_pattern with
    | some m => if general_split_pattern.mark_count + 1 ≥ 2 then sub_match m 1 else []
    | none => []
  match regex_match authority authority_split_pattern with
  | some m => if authority_split_pattern.mark_count + 1 ≥ 3 then sub_match m 2 else []
  | none => []

/-- Whether `needle` is found at the start of `hay`, comparing with `pred`. -/
def matches_at (pred : Char → Char → Bool) : List Char → List Char → Bool
  | _, [] => true
  | [], _ :: _ => false
  | h :: hs, n :: ns => pred h n && matches_at pred hs ns

/-- The call `std::search(hay.begin(), hay.end(), needle.cbegin(), needle.cend(), pred)`,
as the offset of the iterator it returns: the first position where `needle` is found, or
the length of `hay`, which is `hay.end()`, when it is found nowhere. -/
def search (pred : Char → Char → Bool) : List Char → List Char → Nat
  | [], _ => 0
  | h :: hs, needle =>
    if matches_at pred (h :: hs) needle then 0 else search pred hs needle + 1

/-- The method `is_questionable`. -/
def is_questionable (event : BrowsingEvent) : Bool :=
  let domain := get_domain event.m_url
  m_offending_words_.any fun word =>
    search (fun one_value other_value => one_value.toLower == other_value.toLower) domain word
      != domain.length

end Consumer

/-! ### The threads of `main`

A state of the running program: the shared container and counter, the producer on the
calling thread and the consumer threads.  One step is one atomic action of one thread: a
container call under the lock, or the classification of the record a consumer holds with
the atomic increment of the counter.  `Producer::run` touches the container only through
`push` and the final `close_queue`, so the producer is the list of records it has still
to push followed by the close.  The 50 ms sleep changes no state. -/

/-- Where a thread running `Consumer::run` stands. -/
inductive ConsumerPc where
  | pulling
  | classifying
  | finished
deriving DecidableEq, Repr

/-- A thread running `Consumer::run`: its local `my_event`, where it stands, and the log
of the records its successful pulls returned. -/
structure ConsumerThread where
  my_event : BrowsingEvent
  pc : ConsumerPc
  pulled : List BrowsingEvent
deriving DecidableEq, Repr

/-- A consumer thread about to enter the loop of `Consumer::run`. -/
def ConsumerThread.start : ConsumerThread :=
  { my_event := ⟨[], [], []⟩, pc := .pulling, pulled := [] }

/-- The state of the program. -/
structure System where
  communicator : ConcurrentQueue
  storage : Storage
  pending : List BrowsingEvent
  producer_done : Bool
  consumers : List ConsumerThread
deriving DecidableEq, Repr

/-- The threads. -/
inductive ThreadId where
  | producer
  | consumer (i : Nat)
deriving DecidableEq, Repr

namespace System

/-- The program with `n` consumer threads started and a producer that will push `records`. -/
def init (records : List BrowsingEvent) (n : Nat) : System :=
  { communicator := ConcurrentQueue.init, storage := Storage.init, pending := records,
    producer_done := false, consumers := List.replicate n ConsumerThread.start }

/-- One atomic action of thread `t`; `none` when `t` has returned, does not exist, or is
suspended in `pull_one`. -/
def step (s : System) : ThreadId → Option System
  | .producer =>
    match s.pending with
    | r :: rest => some { s with communicator := s.communicator.push r, pending := rest }
    | [] =>
      if s.producer_done then none
      else some { s with communicator := s.communicator.close_queue, producer_done := true }
  | .consumer i =>
    match s.consumers.get? i with
    | none => none
    | some t =>
      match t.pc with
      | .finished => none
      | .classifying =>
        some { s with
          storage :=
            if Consumer.is_questionable t.my_event then s.storage.increase_count else s.storage
          consumers := s.consumers.set i { t with pc := .pulling } }
      | .pulling =>
        match s.communicator.pull_one t.my_event with
        | .waiting => none
        | .returned rv event q =>
          some { s with
            communicator := q
            consumers := s.consumers.set i
              { my_event := event
                pc := if rv then .classifying else .finished
                pulled := if rv then t.pulled ++ [event] else t.pulled } }

/-- The actions of a schedule, one after the other; `none` when a scheduled thread
cannot act. -/
def exec : List ThreadId → System → Option System
  | [], s => some s
  | t :: ts, s => (s.step t).bind (exec ts)

/-- All records returned by successful pulls, over all consumers. -/
def retrieved (s : System) : List BrowsingEvent := (s.consumers.map fun t => t.pulled).flatten

/-- The producer has returned from `run` and every consumer thread has finished, so the
joins of `main` return. -/
def all_done (s : System) : Bool :=
  s.producer_done && s.consumers.all fun t => t.pc == .finished

end System

/-- The program `main` on the text `input`, its threads scheduled as `schedule`: the
number written to the output once both consumer threads are joined; `none` when the
schedule is not a complete run. -/
def Spmc.main (input : List Char) (schedule : List ThreadId) : Option Nat :=
  (published input).bind fun records =>
    ((System.init records 2).exec schedule).bind fun s =>
      if s.all_done then some s.storage.get_count else none

/-- What holds in every state reached from `System.init records n`: the records pushed
so far are those retrieved together with those still held, the container is closed
exactly when the producer has returned, which it does with nothing left to push, and a
consumer finishes only on a closed and empty container. -/
structure System.Inv (records : List BrowsingEvent) (n : Nat) (s : System) : Prop where
  pushed : ∃ pushed : List BrowsingEvent, records = pushed ++ s.pending
    ∧ pushed.Perm (s.retrieved ++ s.communicator.m_events_)
  closed_iff : s.communicator.m_is_closed_ = s.producer_done
  done_pending : s.producer_done = true → s.pending = []
  finished_empty : ∀ t ∈ s.consumers, t.pc = .finished →
    s.communicator.m_is_closed_ = true ∧ s.communicator.m_events_ = []
  length : s.consumers.length = n

/-- What holds in every state of a program whose producer pushes nothing: the container
holds no record, no consumer has a record to classify, and the counter is zero. -/
structure System.NothingPushed (s : System) : Prop where
  count : s.storage.m_count_ = 0
  pending : s.pending = []
  events : s.communicator.m_events_ = []
  not_classifying : ∀ t ∈ s.consumers, t.pc ≠ .classifying

/-- The number of actions a consumer thread has at least still to take. -/
def ConsumerPc.weight : ConsumerPc → Nat
  | .pulling => 1
  | .classifying => 2
  | .finished => 0

/-- A bound on the number of actions left in a state; every action lowers it. -/
def System.measure (s : System) : Nat :=
  3 * s.pending.length + (if s.producer_done then 0 else 1)
    + 2 * s.communicator.m_events_.length + (s.consumers.map fun t => t.pc.weight).sum

/-! ### The blocklist test, as the specification words it -/

/-- The term `word` occurs in `text` as a run of adjacent characters when the ASCII
letters of both are folded to lower case. -/
def occurs_folded (word text : List Char) : Prop :=
  ∃ before after : List Char,
    text.map Char.toLower = before ++ word.map Char.toLower ++ after

/-- The url line of scenario B. -/
def plain_url : List Char := "url: http://example.com/page".toList

/-- A url line that passes `is_valid_url_` and whose authority is not of the form
`[userinfo@]host[:digits]`. -/
def bad_port_url : List Char := "url: http://xxx.com:abc/".toList

/-- A url line with a blocklist term in its path only. -/
def path_term_url : List Char := "url: http://example.com/xxx".toList

/-! ### The parts of a url field, as the specification words them -/

/-- The optional path of a url field: nothing, or a slash and text on the same line,
that is, text without the line terminators LF and CR. -/
def is_path_part (p : List Char) : Prop :=
  p = [] ∨ ∃ path : List Char, (∀ c ∈ path, c ≠ '\n' ∧ c ≠ '\r') ∧ p = '/' :: path

/-- The optional userinfo of an authority: nothing, or a non-empty text without `@` and
without a slash, followed by `@`. -/
def is_userinfo_part (p : List Char) : Prop :=
  p = [] ∨ ∃ userinfo : List Char, userinfo ≠ [] ∧ '@' ∉ userinfo ∧ '/' ∉ userinfo
    ∧ p = userinfo ++ ['@']

/-- The optional port of an authority: nothing, or a colon and one or more digits. -/
def is_port_part (p : List Char) : Prop :=
  p = [] ∨ ∃ digits : List Char, digits ≠ [] ∧ (∀ c ∈ digits, c.isDigit = true)
    ∧ p = ':' :: digits

/-- The first capture group of `authority_split_pattern`, `([^@]+@)`. -/
def Consumer.userinfo_group : Rx :=
  .group 1 (.cat [.plus (.notc '@'), .chr '@'])

/-- What follows the optional first group in `authority_split_pattern`,
`([^:]+)(:[[:digit:]]+)?`. -/
def Consumer.host_port_pattern : Rx :=
  .cat [.group 2 (.plus (.notc ':')), .opt (.group 3 (.cat [.chr ':', .plus .digit]))]

/-! ### The counter and the records classified -/

/-- The records a consumer thread has classified so far: those it has pulled, but for
the last one while it still has that one to classify. -/
def ConsumerThread.classified (t : ConsumerThread) : List BrowsingEvent :=
  if t.pc = .classifying then t.pulled.dropLast else t.pulled

/-- The number of questionable records among those a consumer thread has classified. -/
def ConsumerThread.tally (t : ConsumerThread) : Nat :=
  (t.classified.filter Consumer.is_questionable).length

/-- The number of questionable records among those classified so far, over all
consumers. -/
def System.tally (s : System) : Nat := (s.consumers.map fun t => t.tally).sum

/-- What holds of the counter in every state of the program: it is the number of
questionable records classified so far, as a 64-bit unsigned number, and a consumer that
has a record to classify holds the last record it pulled. -/
structure System.Counted (s : System) : Prop where
  count : s.storage.m_count_ = s.tally % 2 ^ 64
  holding : ∀ t ∈ s.consumers, t.pc = .classifying → ∃ l, t.pulled = l ++ [t.my_event]

/-! ### Sequences of container calls -/

/-- A call of one of the three methods of `ConcurrentQueue`; a call of `pull_one` comes
with the caller's output record. -/
inductive QueueOp where
  | push (event : BrowsingEvent)
  | pull_one (event : BrowsingEvent)
  | close_queue
deriving DecidableEq, Repr

/-- The container after a call; a call of `pull_one` that suspends leaves it as it is. -/
def ConcurrentQueue.apply (q : ConcurrentQueue) : QueueOp → ConcurrentQueue
  | .push event => q.push event
  | .pull_one event =>
    match q.pull_one event with
    | .returned _ _ q' => q'
    | .waiting => q
  | .close_queue => q.close_queue

/-! ## Theorems -/

theorem pull_one_of_ne_nil (c : Bool) (l : List BrowsingEvent) (r event : BrowsingEvent) :
    (ConcurrentQueue.mk c (l ++ [r])).pull_one event = .returned true r ⟨c, l⟩ := by
  simp [ConcurrentQueue.pull_one]

theorem pull_one_closed_nil (event : BrowsingEvent) :
    (ConcurrentQueue.mk true []).pull_one event = .returned false event ⟨true, []⟩ := by
  simp [ConcurrentQueue.pull_one]

theorem foldl_push (rs : List BrowsingEvent) (q : ConcurrentQueue) :
    rs.foldl ConcurrentQueue.push q = ⟨q.m_is_closed_, q.m_events_ ++ rs⟩ := by
  induction rs generalizing q with
  | nil => simp
  | cons r rs ih => simp [ih, ConcurrentQueue.push]

theorem pull_times_append (c : Bool) (l rs : List BrowsingEvent) (event : BrowsingEvent) :
    pull_times rs.length ⟨c, l ++ rs⟩ event
      = some (rs.reverse.map fun r => (true, r), ⟨c, l⟩) := by
  induction rs using List.reverseRecOn generalizing event with
  | nil => simp [pull_times]
  | append_singleton rs r ih =>
    have h := pull_one_of_ne_nil c (l ++ rs) r event
    rw [List.append_assoc] at h
    simp [pull_times, h, ih]

/-- C1: pushing R1, ..., Rk with no pull in between and then calling `pull_one` k times
succeeds every time and returns Rk, ..., R1 in that order, leaving the container as it
was before the pushes; after two pushes the first pull returns the second record. -/
theorem pull_one_lifo (q : ConcurrentQueue) (rs : List BrowsingEvent) (event : BrowsingEvent) :
    pull_times rs.length (rs.foldl ConcurrentQueue.push q) event
        = some (rs.reverse.map fun r => (true, r), q)
      ∧ ∀ r1 r2 : BrowsingEvent,
          ((q.push r1).push r2).pull_one event = .returned true r2 (q.push r1) := by
  refine ⟨?_, ?_⟩
  · rw [foldl_push]
    exact pull_times_append _ _ _ _
  · intro r1 r2
    exact pull_one_of_ne_nil _ _ _ _

/-- C3: on an empty, closed container `pull_one` returns false at once, without
suspending, and leaves the container and the caller's output record as they were. -/
theorem pull_one_empty_closed (q : ConcurrentQueue) (event : BrowsingEvent)
    (hempty : q.m_events_ = []) (hclosed : q.m_is_closed_ = true) :
    q.pull_one event = .returned false event q := by
  simp [ConcurrentQueue.pull_one, hempty, hclosed]

theorem pull_one_empty_closed_witness :
    (ConcurrentQueue.mk true []).pull_one ⟨['d'], ['u'], ['t']⟩
      = .returned false ⟨['d'], ['u'], ['t']⟩ (ConcurrentQueue.mk true []) :=
  pull_one_empty_closed (ConcurrentQueue.mk true []) ⟨['d'], ['u'], ['t']⟩ rfl rfl

theorem pull_times_closed_succ (rs : List BrowsingEvent) (event : BrowsingEvent) :
    pull_times (rs.length + 1) ⟨true, rs⟩ event
      = some ((rs.reverse.map fun r => (true, r)) ++ [(false, rs.headD event)], ⟨true, []⟩) := by
  induction rs using List.reverseRecOn generalizing event with
  | nil => simp [pull_times, pull_one_closed_nil]
  | append_singleton rs r ih =>
    have h := pull_one_of_ne_nil true rs r event
    have hd : (rs ++ [r]).headD event = rs.headD r := by cases rs <;> simp
    rw [List.length_append, List.length_singleton, pull_times, h]
    simp only [ih, hd]
    simp

/-- C4: closing keeps the queued records: `close_queue` leaves the sequence as it is, the
next n calls of `pull_one` each return a record, most recently pushed first, only call
n+1 returns no value, and on a non-empty container `pull_one` returns the last record
whether the container is closed or not. -/
theorem close_keeps_queued_records (q : ConcurrentQueue) (event : BrowsingEvent)
    (hne : q.m_events_ ≠ []) :
    q.close_queue.m_events_ = q.m_events_
      ∧ pull_times q.m_events_.length q.close_queue event
          = some (q.m_events_.reverse.map fun r => (true, r), ⟨true, []⟩)
      ∧ pull_times (q.m_events_.length + 1) q.close_queue event
          = some ((q.m_events_.reverse.map fun r => (true, r))
                    ++ [(false, q.m_events_.head hne)], ⟨true, []⟩)
      ∧ q.pull_one event
          = .returned true (q.m_events_.getLast hne)
              { q with m_events_ := q.m_events_.dropLast } := by
  obtain ⟨c, l⟩ := q
  refine ⟨rfl, ?_, ?_, ?_⟩
  · simpa [ConcurrentQueue.close_queue] using pull_times_append true [] l event
  · show pull_times (l.length + 1) ⟨true, l⟩ event = _
    rw [pull_times_closed_succ]
    cases l with
    | nil => exact absurd rfl hne
    | cons a l => simp
  · obtain ⟨l', r, rfl⟩ : ∃ l' r, l = l' ++ [r] :=
      ⟨l.dropLast, l.getLast hne, (List.dropLast_append_getLast hne).symm⟩
    simp [pull_one_of_ne_nil]

theorem close_keeps_queued_records_witness :
    pull_times 3 (ConcurrentQueue.mk false
        [⟨['a'], [], []⟩, ⟨['b'], [], []⟩]).close_queue ⟨[], [], []⟩
      = some ([(true, ⟨['b'], [], []⟩), (true, ⟨['a'], [], []⟩), (false, ⟨['a'], [], []⟩)],
          ⟨true, []⟩) :=
  (close_keeps_queued_records (ConcurrentQueue.mk false
    [⟨['a'], [], []⟩, ⟨['b'], [], []⟩]) ⟨[], [], []⟩ (by simp)).2.2.1

/-- C5: `close_queue` is idempotent, and on a container that is already closed it
changes nothing; it is a total function, so there is no error outcome. -/
theorem close_queue_idempotent (q : ConcurrentQueue) :
    q.close_queue.close_queue = q.close_queue
      ∧ (q.m_is_closed_ = true → q.close_queue = q) := by
  obtain ⟨c, l⟩ := q
  refine ⟨rfl, ?_⟩
  intro h
  simp only [ConcurrentQueue.close_queue] at *
  rw [h]

theorem close_queue_idempotent_witness :
    (ConcurrentQueue.mk true [⟨['a'], [], []⟩]).close_queue
      = ConcurrentQueue.mk true [⟨['a'], [], []⟩] :=
  (close_queue_idempotent (ConcurrentQueue.mk true [⟨['a'], [], []⟩])).2 rfl

theorem flatten_pulled_set_same (l : List ConsumerThread) (i : Nat) (t t' : ConsumerThread)
    (h : l[i]? = some t) (hp : t'.pulled = t.pulled) :
    ((l.set i t').map fun t => t.pulled).flatten = (l.map fun t => t.pulled).flatten := by
  induction l generalizing i with
  | nil => simp at h
  | cons a l ih =>
    cases i with
    | zero =>
      simp only [List.getElem?_cons_zero, Option.some.injEq] at h
      subst h
      simp [hp]
    | succ i =>
      simp only [List.getElem?_cons_succ] at h
      simp only [List.set_cons_succ, List.map_cons, List.flatten_cons, ih i h]

theorem flatten_pulled_set_append (l : List ConsumerThread) (i : Nat) (t t' : ConsumerThread)
    (r : BrowsingEvent) (h : l[i]? = some t) (hp : t'.pulled = t.pulled ++ [r]) :
    (((l.set i t').map fun t => t.pulled).flatten).Perm
      (r :: (l.map fun t => t.pulled).flatten) := by
  induction l generalizing i with
  | nil => simp at h
  | cons a l ih =>
    cases i with
    | zero =>
      simp only [List.getElem?_cons_zero, Option.some.injEq] at h
      subst h
      simp only [List.set_cons_zero, List.map_cons, List.flatten_cons, hp, List.append_assoc,
        List.singleton_append]
      exact List.perm_middle
    | succ i =>
      simp only [List.getElem?_cons_succ] at h
      simp only [List.set_cons_succ, List.map_cons, List.flatten_cons]
      exact ((ih i h).append_left a.pulled).trans List.perm_middle

theorem System.Inv.init (records : List BrowsingEvent) (n : Nat) :
    System.Inv records n (System.init records n) where
  pushed := ⟨[], by simp [System.init], by
    simp [System.init, System.retrieved, ConcurrentQueue.init, ConsumerThread.start]⟩
  closed_iff := rfl
  done_pending := by simp [System.init]
  finished_empty := by
    intro t ht hfin
    simp only [System.init, List.mem_replicate] at ht
    rw [ht.2] at hfin
    cases hfin
  length := by simp [System.init]

theorem System.Inv.step {records : List BrowsingEvent} {n : Nat} {s s' : System}
    (t : ThreadId) (inv : System.Inv records n s) (h : s.step t = some s') :
    System.Inv records n s' := by
  obtain ⟨⟨pushed, hrec, hperm⟩, hclosed, hdone, hfin, hlen⟩ := inv
  cases t with
  | producer =>
    simp only [System.step] at h
    split at h
    · rename_i r rest hpend
      simp only [Option.some.injEq] at h
      subst h
      have hnd : s.producer_done = false := by
        cases hd : s.producer_done with
        | false => rfl
        | true => rw [hdone hd] at hpend; cases hpend
      refine ⟨⟨pushed ++ [r], ?_, ?_⟩, hclosed, ?_, ?_, hlen⟩
      · simp [hrec, hpend]
      · simp only [ConcurrentQueue.push, System.retrieved, ← List.append_assoc]
        exact hperm.append_right [r]
      · intro hd
        simp only [hnd] at hd
        cases hd
      · intro t ht hpc
        have := (hfin t ht hpc).1
        rw [hclosed, hnd] at this
        cases this
    · rename_i hpend
      split at h
      · cases h
      · simp only [Option.some.injEq] at h
        subst h
        refine ⟨⟨pushed, hrec, hperm⟩, rfl, fun _ => hpend, ?_, hlen⟩
        intro t ht hpc
        exact ⟨rfl, (hfin t ht hpc).2⟩
  | consumer i =>
    simp only [System.step, List.get?_eq_getElem?] at h
    split at h
    · cases h
    · rename_i t ht
      split at h
      · cases h
      · rename_i hpc
        simp only [Option.some.injEq] at h
        subst h
        refine ⟨⟨pushed, hrec, ?_⟩, hclosed, hdone, ?_, by simpa using hlen⟩
        · have hp := flatten_pulled_set_same s.consumers i t
            { my_event := t.my_event, pc := .pulling, pulled := t.pulled } ht rfl
          simp only [System.retrieved] at hperm ⊢
          rw [hp]
          exact hperm
        · intro t' ht' hpc'
          rcases List.mem_or_eq_of_mem_set ht' with hmem | heq
          · exact hfin t' hmem hpc'
          · rw [heq] at hpc'
            cases hpc'
      · rename_i hpc
        split at h
        · cases h
        · rename_i rv event q hpull
          simp only [Option.some.injEq] at h
          subst h
          obtain ⟨c, l, hq⟩ : ∃ c l, s.communicator = ⟨c, l⟩ := ⟨_, _, rfl⟩
          rw [hq] at hpull
          by_cases hl : l = []
          · subst hl
            cases c with
            | false => simp [ConcurrentQueue.pull_one] at hpull
            | true =>
              rw [pull_one_closed_nil] at hpull
              simp only [PullOutcome.returned.injEq] at hpull
              obtain ⟨rfl, rfl, rfl⟩ := hpull
              refine ⟨⟨pushed, hrec, ?_⟩, ?_, hdone, ?_, by simpa using hlen⟩
              · have hp := flatten_pulled_set_same s.consumers i t
                  { my_event := t.my_event, pc := .finished, pulled := t.pulled } ht rfl
                simp only [System.retrieved, hq] at hperm ⊢
                simp only [Bool.false_eq_true, if_false]
                rw [hp]
                exact hperm
              · simpa [hq] using hclosed
              · intro _ _ _
                exact ⟨rfl, rfl⟩
          · obtain ⟨l', r, rfl⟩ : ∃ l' r, l = l' ++ [r] :=
              ⟨l.dropLast, l.getLast hl, (List.dropLast_append_getLast hl).symm⟩
            rw [pull_one_of_ne_nil] at hpull
            simp only [PullOutcome.returned.injEq] at hpull
            obtain ⟨rfl, rfl, rfl⟩ := hpull
            refine ⟨⟨pushed, hrec, ?_⟩, ?_, hdone, ?_, by simpa using hlen⟩
            · simp only [System.retrieved]
              have hp := flatten_pulled_set_append s.consumers i t
                { my_event := r, pc := .classifying, pulled := t.pulled ++ [r] }
                r ht rfl
              simp only [System.retrieved, hq] at hperm
              refine hperm.trans ?_
              simp only [if_true]
              refine List.Perm.trans ?_ (hp.symm.append_right l')
              simp only [← List.append_assoc, List.cons_append]
              exact List.perm_append_singleton r _
            · simpa [hq] using hclosed
            · intro t' ht' hpc'
              rcases List.mem_or_eq_of_mem_set ht' with hmem | heq
              · have := (hfin t' hmem hpc').2
                simp [hq] at this
              · rw [heq] at hpc'
                simp at hpc'

theorem System.Inv.exec {records : List BrowsingEvent} {n : Nat} (schedule : List ThreadId)
    {s s' : System} (inv : System.Inv records n s) (h : s.exec schedule = some s') :
    System.Inv records n s' := by
  induction schedule generalizing s with
  | nil =>
    simp only [System.exec, Option.some.injEq] at h
    exact h ▸ inv
  | cons t ts ih =>
    simp only [System.exec] at h
    cases hstep : s.step t with
    | none => simp [hstep] at h
    | some s1 =>
      rw [hstep] at h
      exact ih (inv.step t hstep) h

theorem sum_weight_set (l : List ConsumerThread) (i : Nat) (t t' : ConsumerThread)
    (h : l[i]? = some t) :
    ((l.set i t').map fun t => t.pc.weight).sum + t.pc.weight
      = (l.map fun t => t.pc.weight).sum + t'.pc.weight := by
  induction l generalizing i with
  | nil => simp at h
  | cons a l ih =>
    cases i with
    | zero =>
      simp only [List.getElem?_cons_zero, Option.some.injEq] at h
      subst h
      simp only [List.set_cons_zero, List.map_cons, List.sum_cons]
      omega
    | succ i =>
      simp only [List.getElem?_cons_succ] at h
      have := ih i h
      simp only [List.set_cons_succ, List.map_cons, List.sum_cons]
      omega

theorem System.measure_step {s s' : System} (t : ThreadId) (h : s.step t = some s') :
    s'.measure < s.measure := by
  cases t with
  | producer =>
    simp only [System.step] at h
    split at h
    · rename_i r rest hpend
      simp only [Option.some.injEq] at h
      subst h
      simp only [System.measure, hpend, ConcurrentQueue.push, List.length_append,
        List.length_cons, List.length_nil]
      omega
    · rename_i hpend
      split at h
      · cases h
      · rename_i hd
        simp only [Option.some.injEq] at h
        subst h
        simp [System.measure, hd, ConcurrentQueue.close_queue]
  | consumer i =>
    simp only [System.step, List.get?_eq_getElem?] at h
    split at h
    · cases h
    · rename_i t ht
      split at h
      · cases h
      · rename_i hpc
        simp only [Option.some.injEq] at h
        subst h
        have hs := sum_weight_set s.consumers i t
          { my_event := t.my_event, pc := .pulling, pulled := t.pulled } ht
        rw [hpc] at hs
        change _ + 2 = _ + 1 at hs
        simp only [System.measure]
        omega
      · rename_i hpc
        split at h
        · cases h
        · rename_i rv event q hpull
          simp only [Option.some.injEq] at h
          subst h
          obtain ⟨c, l, hq⟩ : ∃ c l, s.communicator = ⟨c, l⟩ := ⟨_, _, rfl⟩
          rw [hq] at hpull
          by_cases hl : l = []
          · subst hl
            cases c with
            | false => simp [ConcurrentQueue.pull_one] at hpull
            | true =>
              rw [pull_one_closed_nil] at hpull
              simp only [PullOutcome.returned.injEq] at hpull
              obtain ⟨rfl, rfl, rfl⟩ := hpull
              have hs := sum_weight_set s.consumers i t
                { my_event := t.my_event, pc := .finished, pulled := t.pulled } ht
              rw [hpc] at hs
              change _ + 1 = _ + 0 at hs
              simp only [System.measure, hq, Bool.false_eq_true, if_false]
              omega
          · obtain ⟨l', r, rfl⟩ : ∃ l' r, l = l' ++ [r] :=
              ⟨l.dropLast, l.getLast hl, (List.dropLast_append_getLast hl).symm⟩
            rw [pull_one_of_ne_nil] at hpull
            simp only [PullOutcome.returned.injEq] at hpull
            obtain ⟨rfl, rfl, rfl⟩ := hpull
            have hs := sum_weight_set s.consumers i t
              { my_event := r, pc := .classifying, pulled := t.pulled ++ [r] } ht
            rw [hpc] at hs
            change _ + 1 = _ + 2 at hs
            simp only [System.measure, hq, if_true, List.length_append, List.length_cons,
              List.length_nil]
            omega

theorem System.Inv.progress {records : List BrowsingEvent} {n : Nat} {s : System}
    (inv : System.Inv records n s) (h : s.all_done = false) :
    ∃ t s', s.step t = some s' := by
  cases hd : s.producer_done with
  | false =>
    refine ⟨.producer, ?_⟩
    simp only [System.step]
    cases s.pending with
    | nil => simp [hd]
    | cons r rest => simp
  | true =>
    simp only [System.all_done, hd, Bool.true_and, List.all_eq_false] at h
    obtain ⟨t, ht, hpc⟩ := h
    obtain ⟨i, hi, hget⟩ := List.getElem_of_mem ht
    have hget' : s.consumers[i]? = some t := by
      rw [List.getElem?_eq_getElem hi, hget]
    refine ⟨.consumer i, ?_⟩
    simp only [System.step, List.get?_eq_getElem?, hget']
    cases hp : t.pc with
    | finished => simp [hp] at hpc
    | classifying => simp
    | pulling =>
      have hc : s.communicator.m_is_closed_ = true := by rw [inv.closed_iff, hd]
      cases hpull : s.communicator.pull_one t.my_event with
      | returned rv event q => simp
      | waiting =>
        simp only [ConcurrentQueue.pull_one, hc] at hpull
        split at hpull <;> simp at hpull

theorem System.Inv.completes {records : List BrowsingEvent} {n : Nat} (k : Nat) {s : System}
    (inv : System.Inv records n s) (hk : s.measure ≤ k) :
    ∃ schedule s', s.exec schedule = some s' ∧ s'.all_done = true := by
  induction k generalizing s with
  | zero =>
    cases hdone : s.all_done with
    | true => exact ⟨[], s, rfl, hdone⟩
    | false =>
      obtain ⟨t, s1, hstep⟩ := inv.progress hdone
      have := System.measure_step t hstep
      omega
  | succ k ih =>
    cases hdone : s.all_done with
    | true => exact ⟨[], s, rfl, hdone⟩
    | false =>
      obtain ⟨t, s1, hstep⟩ := inv.progress hdone
      have hlt := System.measure_step t hstep
      obtain ⟨schedule, s', hexec, hall⟩ := ih (inv.step t hstep) (by omega)
      exact ⟨t :: schedule, s', by simp [System.exec, hstep, hexec], hall⟩

/-- C2: no loss and no duplication.  In every state reached by any interleaving of a
producer that pushes `records` and then closes with n ≥ 1 consumers pulling until they
get no value, the records pushed so far are, as a multiset, those retrieved together with
those still held; once every thread has returned, the records retrieved over all
consumers are exactly the multiset of `records`; and every such state can be run on to
one where every thread has returned. -/
theorem no_loss_no_duplication (records : List BrowsingEvent) (n : Nat) (hn : 1 ≤ n)
    (schedule : List ThreadId) (s : System)
    (h : (System.init records n).exec schedule = some s) :
    (∃ pushed : List BrowsingEvent, records = pushed ++ s.pending
        ∧ (↑pushed : Multiset BrowsingEvent) = ↑s.retrieved + ↑s.communicator.m_events_)
      ∧ (s.all_done = true →
          (↑s.retrieved : Multiset BrowsingEvent) = ↑records
            ∧ s.retrieved.length = records.length)
      ∧ ∃ rest s', s.exec rest = some s' ∧ s'.all_done = true := by
  have inv := (System.Inv.init records n).exec schedule h
  obtain ⟨pushed, hrec, hperm⟩ := inv.pushed
  refine ⟨⟨pushed, hrec, ?_⟩, ?_, inv.completes s.measure le_rfl⟩
  · rw [Multiset.coe_add, Multiset.coe_eq_coe]
    exact hperm
  · intro hall
    simp only [System.all_done, Bool.and_eq_true, List.all_eq_true, beq_iff_eq] at hall
    obtain ⟨hdone, hfin⟩ := hall
    have hne : s.consumers ≠ [] := by
      intro hnil
      have := inv.length
      rw [hnil] at this
      simp only [List.length_nil] at this
      omega
    obtain ⟨t, l, hcons⟩ := List.exists_cons_of_ne_nil hne
    have ht : t ∈ s.consumers := by simp [hcons]
    have hempty := (inv.finished_empty t ht (hfin t ht)).2
    rw [inv.done_pending hdone, List.append_nil] at hrec
    rw [hempty, List.append_nil] at hperm
    subst hrec
    exact ⟨Multiset.coe_eq_coe.mpr hperm.symm, hperm.length_eq.symm⟩

theorem no_loss_no_duplication_witness :
    (System.init [⟨['a'], [], []⟩, ⟨['b'], [], []⟩] 2).exec
        [.producer, .consumer 0, .producer, .producer, .consumer 1, .consumer 0,
          .consumer 1, .consumer 0, .consumer 1]
      = some
          { communicator := ⟨true, []⟩, storage := ⟨0⟩, pending := [], producer_done := true
            consumers := [⟨⟨['a'], [], []⟩, .finished, [⟨['a'], [], []⟩]⟩,
              ⟨⟨['b'], [], []⟩, .finished, [⟨['b'], [], []⟩]⟩] }
      ∧ (↑[(⟨['a'], [], []⟩ : BrowsingEvent), ⟨['b'], [], []⟩] : Multiset BrowsingEvent)
          = ↑[(⟨['a'], [], []⟩ : BrowsingEvent), ⟨['b'], [], []⟩] :=
  have h : (System.init [⟨['a'], [], []⟩, ⟨['b'], [], []⟩] 2).exec
        [.producer, .consumer 0, .producer, .producer, .consumer 1, .consumer 0,
          .consumer 1, .consumer 0, .consumer 1]
      = some
          { communicator := ⟨true, []⟩, storage := ⟨0⟩, pending := [], producer_done := true
            consumers := [⟨⟨['a'], [], []⟩, .finished, [⟨['a'], [], []⟩]⟩,
              ⟨⟨['b'], [], []⟩, .finished, [⟨['b'], [], []⟩]⟩] } := by decide
  ⟨h, ((no_loss_no_duplication _ 2 (by decide) _ _ h).2.1 (by decide)).1⟩

/-! ### Reading lines -/

theorem getline_not_good (is : IStream) (str : List Char) (h : is.good = false) :
    getline is str = ({ is with failbit := true }, str) := by
  simp [getline, h]

theorem getline_line (l rest str : List Char) (hl : '\n' ∉ l) :
    getline ⟨l ++ '\n' :: rest, false, false⟩ str = (⟨rest, false, false⟩, l) := by
  have hp : ∀ a ∈ l, (fun c : Char => c != '\n') a = true := by
    intro a ha
    simp only [bne_iff_ne, ne_eq]
    rintro rfl
    exact hl ha
  simp only [getline, IStream.good, Bool.not_false, Bool.and_self, Bool.not_true,
    Bool.false_eq_true, if_false]
  rw [List.takeWhile_append_of_pos hp, List.dropWhile_append_of_pos hp]
  simp

theorem getline_last (l str : List Char) (hl : '\n' ∉ l) :
    getline ⟨l, false, false⟩ str = (⟨[], true, l.isEmpty⟩, l) := by
  have hp : ∀ a ∈ l, (fun c : Char => c != '\n') a = true := by
    intro a ha
    simp only [bne_iff_ne, ne_eq]
    rintro rfl
    exact hl ha
  simp only [getline, IStream.good, Bool.not_false, Bool.and_self, Bool.not_true,
    Bool.false_eq_true, if_false]
  rw [List.dropWhile_eq_nil_iff.mpr hp, List.takeWhile_eq_self_iff.mpr hp]

theorem buf_split (buf : List Char) :
    '\n' ∉ buf ∨ ∃ l rest, '\n' ∉ l ∧ buf = l ++ '\n' :: rest := by
  induction buf with
  | nil => left; simp
  | cons c cs ih =>
    by_cases hc : c = '\n'
    · right
      exact ⟨[], cs, by simp, by simp [hc]⟩
    · rcases ih with h | ⟨l, rest, hl, rfl⟩
      · left
        simp only [List.mem_cons, not_or]
        exact ⟨fun h' => hc h'.symm, h⟩
      · right
        refine ⟨c :: l, rest, ?_, by simp⟩
        simp only [List.mem_cons, not_or]
        exact ⟨fun h' => hc h'.symm, hl⟩

/-- The three ways a call of `getline` can go. -/
theorem getline_cases (is : IStream) (str : List Char) :
    (is.good = false ∧ getline is str = ({ is with failbit := true }, str))
      ∨ (is.good = true ∧ '\n' ∉ is.buf
          ∧ getline is str = (⟨[], true, is.buf.isEmpty⟩, is.buf))
      ∨ (is.good = true ∧ ∃ l rest, '\n' ∉ l ∧ is.buf = l ++ '\n' :: rest
          ∧ getline is str = (⟨rest, false, false⟩, l)) := by
  cases hg : is.good with
  | false => exact Or.inl ⟨rfl, getline_not_good is str hg⟩
  | true =>
    right
    obtain ⟨buf, e, f⟩ := is
    simp only [IStream.good, Bool.and_eq_true, Bool.not_eq_true'] at hg
    obtain ⟨rfl, rfl⟩ := hg
    rcases buf_split buf with h | ⟨l, rest, hl, rfl⟩
    · exact Or.inl ⟨rfl, h, getline_last buf str h⟩
    · exact Or.inr ⟨rfl, l, rest, hl, rfl, getline_line l rest str hl⟩

theorem getline_wf (is : IStream) (str : List Char) (h : is.wf) : (getline is str).1.wf := by
  rcases getline_cases is str with ⟨hg, he⟩ | ⟨_, _, he⟩ | ⟨_, l, rest, _, _, he⟩
  · rw [he]
    intro _
    simp only [IStream.good, Bool.and_eq_false_iff, Bool.not_eq_false'] at hg
    rcases hg with hg | hg
    · exact hg
    · exact h hg
  · rw [he]
    intro _
    rfl
  · rw [he]
    intro hf
    cases hf

theorem getline_steps_le (is : IStream) (str : List Char) :
    (getline is str).1.steps ≤ is.steps := by
  rcases getline_cases is str with ⟨_, he⟩ | ⟨_, _, he⟩ | ⟨hg, l, rest, _, hb, he⟩
  · rw [he]
    exact le_rfl
  · rw [he]
    simp [IStream.steps]
  · rw [he]
    simp only [IStream.good, Bool.and_eq_true, Bool.not_eq_true'] at hg
    simp only [IStream.steps, hb, hg.1, List.length_append, List.length_cons]
    simp
    omega

theorem getline_steps_lt (is : IStream) (str : List Char) (hg : is.good = true) :
    (getline is str).1.steps < is.steps := by
  have hg' := hg
  simp only [IStream.good, Bool.and_eq_true, Bool.not_eq_true'] at hg'
  rcases getline_cases is str with ⟨hb, _⟩ | ⟨_, _, he⟩ | ⟨_, l, rest, _, hb, he⟩
  · rw [hg] at hb
    cases hb
  · rw [he]
    simp [IStream.steps, hg'.1]
  · rw [he]
    simp only [IStream.steps, hb, hg'.1, List.length_append, List.length_cons]
    simp
    omega

theorem good_of_wf_not_eof (is : IStream) (h : is.wf) (he : is.eof = false) :
    is.good = true := by
  simp only [IStream.eof] at he
  simp only [IStream.good, Bool.and_eq_true, Bool.not_eq_true']
  refine ⟨he, ?_⟩
  cases hf : is.failbit with
  | false => rfl
  | true => rw [h hf] at he; cases he

theorem Producer.body_wf (p : Producer) (v : Producer.Lines) (h : p.m_input_.wf) :
    (Producer.body p v).1.m_input_.wf := by
  have h1 := getline_wf p.m_input_ v.first_line h
  have h2 := fun s => getline_wf (getline p.m_input_ v.first_line).1 s h1
  have h3 := fun s t => getline_wf (getline (getline p.m_input_ v.first_line).1 s).1 t (h2 s)
  simp only [Producer.body]
  split_ifs
  · exact h1
  · exact h2 _
  · exact h3 _ _
  · exact h3 _ _

theorem Producer.body_steps (p : Producer) (v : Producer.Lines) (h : p.m_input_.wf)
    (he : p.m_input_.eof = false) :
    (Producer.body p v).1.m_input_.steps < p.m_input_.steps := by
  have h1 := getline_steps_lt p.m_input_ v.first_line (good_of_wf_not_eof _ h he)
  have h2 := fun s => getline_steps_le (getline p.m_input_ v.first_line).1 s
  have h3 := fun s t => getline_steps_le (getline (getline p.m_input_ v.first_line).1 s).1 t
  simp only [Producer.body]
  split_ifs
  · exact h1
  · exact lt_of_le_of_lt (h2 _) h1
  · exact lt_of_le_of_lt ((h3 _ _).trans (h2 _)) h1
  · exact lt_of_le_of_lt ((h3 _ _).trans (h2 _)) h1

/-- With enough fuel the loop is left, and more fuel changes nothing. -/
theorem Producer.run_loop_fuel (f1 f2 : Nat) (p : Producer) (v : Producer.Lines)
    (h : p.m_input_.wf) (h1 : p.m_input_.steps < f1) (h2 : p.m_input_.steps < f2) :
    Producer.run_loop f1 p v = Producer.run_loop f2 p v
      ∧ ∃ r, Producer.run_loop f1 p v = some r := by
  induction f1 generalizing f2 p v with
  | zero => omega
  | succ f1 ih =>
    cases f2 with
    | zero => omega
    | succ f2 =>
      simp only [Producer.run_loop]
      cases he : p.m_input_.eof with
      | true => simp
      | false =>
        have hs := Producer.body_steps p v h he
        simp only [Bool.false_eq_true, if_false]
        exact ih f2 _ _ (Producer.body_wf p v h) (by omega) (by omega)

theorem Producer.run_loop_step (f : Nat) (p : Producer) (v : Producer.Lines)
    (he : p.m_input_.eof = false) :
    Producer.run_loop (f + 1) p v
      = Producer.run_loop f (Producer.body p v).1 (Producer.body p v).2 := by
  simp [Producer.run_loop, he]

theorem Producer.run_loop_eof (f : Nat) (p : Producer) (v : Producer.Lines)
    (he : p.m_input_.eof = true) :
    Producer.run_loop (f + 1) p v = some (p, v) := by
  simp [Producer.run_loop, he]

/-! ### The matcher and the texts a pattern matches -/

theorem Rx.starRun_sound (step : List Char → Caps → List (List Char × Caps))
    (L : List Char → Prop)
    (hstep : ∀ s c rest c', (rest, c') ∈ step s c → ∃ w, L w ∧ s = w ++ rest)
    (n : Nat) (s : List Char) (c : Caps) (rest : List Char) (c' : Caps)
    (h : (rest, c') ∈ Rx.starRun step n s c) :
    ∃ ws : List (List Char), (∀ u ∈ ws, L u) ∧ s = ws.flatten ++ rest := by
  induction n generalizing s c with
  | zero =>
    simp only [Rx.starRun, List.mem_singleton, Prod.mk.injEq] at h
    exact ⟨[], by simp, by simp [h.1]⟩
  | succ n ih =>
    simp only [Rx.starRun, List.mem_append, List.mem_flatMap, List.mem_filter,
      List.mem_singleton, Prod.mk.injEq] at h
    rcases h with ⟨⟨s1, c1⟩, ⟨hmem, _⟩, hrest⟩ | h
    · obtain ⟨w, hw, rfl⟩ := hstep _ _ _ _ hmem
      obtain ⟨ws, hws, hs1⟩ := ih _ _ hrest
      refine ⟨w :: ws, ?_, ?_⟩
      · intro u hu
        rcases List.mem_cons.mp hu with rfl | hu
        · exact hw
        · exact hws u hu
      · simp only at hs1
        simp [hs1]
    · exact ⟨[], by simp, by simp [h.1]⟩

theorem Rx.starRun_complete (step : List Char → Caps → List (List Char × Caps))
    (L : List Char → Prop)
    (hstep : ∀ w, L w → ∀ rest c, ∃ c', (rest, c') ∈ step (w ++ rest) c)
    (ws : List (List Char)) (hws : ∀ u ∈ ws, L u) (n : Nat) (rest : List Char) (c : Caps)
    (hn : (ws.flatten ++ rest).length ≤ n) :
    ∃ c', (rest, c') ∈ Rx.starRun step n (ws.flatten ++ rest) c := by
  induction ws generalizing n c with
  | nil =>
    cases n with
    | zero => exact ⟨c, by simp [Rx.starRun]⟩
    | succ n => exact ⟨c, by simp [Rx.starRun]⟩
  | cons u ws ih =>
    have hws' : ∀ u ∈ ws, L u := fun x hx => hws x (List.mem_cons_of_mem _ hx)
    by_cases hu : u = []
    · subst hu
      simpa using ih hws' n c (by simpa using hn)
    · have hpos : 0 < u.length := List.length_pos.mpr hu
      simp only [List.flatten_cons, List.append_assoc, List.length_append] at hn
      cases n with
      | zero => omega
      | succ n =>
        obtain ⟨c1, hc1⟩ := hstep u (hws u (List.mem_cons_self _ _)) (ws.flatten ++ rest) c
        obtain ⟨c2, hc2⟩ := ih hws' n c1 (by simp only [List.length_append]; omega)
        refine ⟨c2, ?_⟩
        simp only [Rx.starRun, List.flatten_cons, List.append_assoc, List.mem_append,
          List.mem_flatMap, List.mem_filter, List.mem_singleton]
        left
        refine ⟨(ws.flatten ++ rest, c1), ⟨hc1, ?_⟩, hc2⟩
        simp only [List.length_append, decide_eq_true_eq]
        omega

theorem Rx.run_sound (r : Rx) (s : List Char) (c : Caps) (rest : List Char) (c' : Caps)
    (h : (rest, c') ∈ r.run s c) : ∃ w, r.lang w ∧ s = w ++ rest := by
  induction r generalizing s c rest c' with
  | eps =>
    simp only [Rx.run, List.mem_singleton, Prod.mk.injEq] at h
    exact ⟨[], rfl, by simp [h.1]⟩
  | cls p =>
    cases s with
    | nil => simp [Rx.run] at h
    | cons x xs =>
      simp only [Rx.run] at h
      split at h
      · rename_i hp
        simp only [List.mem_singleton, Prod.mk.injEq] at h
        exact ⟨[x], ⟨x, hp, rfl⟩, by simp [h.1]⟩
      · simp at h
  | seq a b iha ihb =>
    simp only [Rx.run, List.mem_flatMap] at h
    obtain ⟨⟨s1, c1⟩, h1, h2⟩ := h
    obtain ⟨u, hu, rfl⟩ := iha _ _ _ _ h1
    obtain ⟨v, hv, hs1⟩ := ihb _ _ _ _ h2
    simp only at hs1
    exact ⟨u ++ v, ⟨u, v, hu, hv, rfl⟩, by simp [hs1]⟩
  | alt a b iha ihb =>
    simp only [Rx.run, List.mem_append] at h
    rcases h with h | h
    · obtain ⟨w, hw, hs⟩ := iha _ _ _ _ h
      exact ⟨w, Or.inl hw, hs⟩
    · obtain ⟨w, hw, hs⟩ := ihb _ _ _ _ h
      exact ⟨w, Or.inr hw, hs⟩
  | star a iha =>
    simp only [Rx.run] at h
    obtain ⟨ws, hws, hs⟩ := Rx.starRun_sound (Rx.run a) a.lang iha _ _ _ _ _ h
    exact ⟨ws.flatten, ⟨ws, hws, rfl⟩, hs⟩
  | group i a iha =>
    simp only [Rx.run, List.mem_map, Prod.mk.injEq] at h
    obtain ⟨⟨s1, c1⟩, h1, h2, _⟩ := h
    simp only at h2
    subst h2
    exact iha _ _ _ _ h1

theorem Rx.run_complete (r : Rx) (w : List Char) (h : r.lang w) (rest : List Char)
    (c : Caps) : ∃ c', (rest, c') ∈ r.run (w ++ rest) c := by
  induction r generalizing w rest c with
  | eps =>
    simp only [Rx.lang] at h
    subst h
    exact ⟨c, by simp [Rx.run]⟩
  | cls p =>
    obtain ⟨x, hp, rfl⟩ := h
    exact ⟨c, by simp [Rx.run, hp]⟩
  | seq a b iha ihb =>
    obtain ⟨u, v, hu, hv, rfl⟩ := h
    obtain ⟨c1, h1⟩ := iha u hu (v ++ rest) c
    obtain ⟨c2, h2⟩ := ihb v hv rest c1
    refine ⟨c2, ?_⟩
    simp only [Rx.run, List.mem_flatMap, List.append_assoc]
    exact ⟨(v ++ rest, c1), h1, h2⟩
  | alt a b iha ihb =>
    rcases h with h | h
    · obtain ⟨c1, h1⟩ := iha w h rest c
      exact ⟨c1, by simp only [Rx.run, List.mem_append]; exact Or.inl h1⟩
    · obtain ⟨c1, h1⟩ := ihb w h rest c
      exact ⟨c1, by simp only [Rx.run, List.mem_append]; exact Or.inr h1⟩
  | star a iha =>
    obtain ⟨ws, hws, rfl⟩ := h
    simp only [Rx.run]
    exact Rx.starRun_complete (Rx.run a) a.lang iha ws hws _ rest c le_rfl
  | group i a iha =>
    obtain ⟨c1, h1⟩ := iha w h rest c
    refine ⟨(i, (w ++ rest).take ((w ++ rest).length - rest.length)) :: c1, ?_⟩
    simp only [Rx.run, List.mem_map, Prod.mk.injEq]
    exact ⟨(rest, c1), h1, rfl, rfl⟩

/-- A text is matched by `regex_match` exactly when the pattern matches it as a whole. -/
theorem regex_match_isSome (str : List Char) (pattern : Rx) :
    (regex_match str pattern).isSome = true ↔ pattern.lang str := by
  simp only [regex_match, Option.isSome_map', List.find?_isSome, List.isEmpty_iff]
  constructor
  · rintro ⟨⟨rest, c'⟩, hmem, hrest⟩
    simp only at hrest
    subst hrest
    obtain ⟨w, hw, hs⟩ := Rx.run_sound _ _ _ _ _ hmem
    simpa [hs] using hw
  · intro h
    obtain ⟨c', hc'⟩ := Rx.run_complete pattern str h [] []
    exact ⟨([], c'), by simpa using hc', rfl⟩

theorem Rx.lang_excludes (x : Char) (r : Rx) (h : r.excludes x = true) (w : List Char)
    (hw : r.lang w) : x ∉ w := by
  induction r generalizing w with
  | eps =>
    simp only [Rx.lang] at hw
    simp [hw]
  | cls p =>
    obtain ⟨c, hc, rfl⟩ := hw
    simp only [Rx.excludes, Bool.not_eq_true'] at h
    simp only [List.mem_singleton]
    rintro rfl
    rw [h] at hc
    cases hc
  | seq a b iha ihb =>
    obtain ⟨u, v, hu, hv, rfl⟩ := hw
    simp only [Rx.excludes, Bool.and_eq_true] at h
    simp only [List.mem_append, not_or]
    exact ⟨iha h.1 u hu, ihb h.2 v hv⟩
  | alt a b iha ihb =>
    simp only [Rx.excludes, Bool.and_eq_true] at h
    rcases hw with hw | hw
    · exact iha h.1 w hw
    · exact ihb h.2 w hw
  | star a iha =>
    obtain ⟨ws, hws, rfl⟩ := hw
    simp only [Rx.excludes] at h
    simp only [List.mem_flatten, not_exists, not_and]
    intro u hu
    exact iha h u (hws u hu)
  | group i a iha =>
    exact iha h w hw

theorem Rx.lang_chr (c : Char) (w : List Char) : (Rx.chr c).lang w ↔ w = [c] := by
  simp [Rx.chr, Rx.lang]

theorem Rx.lang_str (l w : List Char) : (Rx.str l).lang w ↔ w = l := by
  induction l generalizing w with
  | nil => simp [Rx.str, Rx.lang]
  | cons c cs ih =>
    simp only [Rx.str, Rx.lang, ih]
    constructor
    · rintro ⟨u, v, hu, rfl, rfl⟩
      rw [(Rx.lang_chr c u).mp hu]
      rfl
    · rintro rfl
      exact ⟨[c], cs, (Rx.lang_chr c [c]).mpr rfl, rfl, rfl⟩

theorem Rx.lang_star_cls (p : Char → Bool) (w : List Char) :
    (Rx.star (Rx.cls p)).lang w ↔ ∀ c ∈ w, p c = true := by
  simp only [Rx.lang]
  constructor
  · rintro ⟨ws, hws, rfl⟩ c hc
    obtain ⟨u, hu, hcu⟩ := List.mem_flatten.mp hc
    obtain ⟨x, hx, rfl⟩ := hws u hu
    rw [List.mem_singleton.mp hcu]
    exact hx
  · intro h
    refine ⟨w.map fun c => [c], ?_, ?_⟩
    · intro u hu
      obtain ⟨c, hc, rfl⟩ := List.mem_map.mp hu
      exact ⟨c, h c hc, rfl⟩
    · induction w with
      | nil => rfl
      | cons a l ih =>
        simp only [List.map_cons, List.flatten_cons, List.singleton_append, List.cons.injEq,
          true_and]
        exact ih fun c hc => h c (List.mem_cons_of_mem _ hc)

theorem Rx.lang_plus_cls (p : Char → Bool) (w : List Char) :
    (Rx.plus (Rx.cls p)).lang w ↔ w ≠ [] ∧ ∀ c ∈ w, p c = true := by
  simp only [Rx.plus]
  constructor
  · rintro ⟨u, v, ⟨x, hx, rfl⟩, hv, rfl⟩
    refine ⟨by simp, ?_⟩
    intro c hc
    rcases List.mem_cons.mp hc with rfl | hc
    · exact hx
    · exact (Rx.lang_star_cls p v).mp hv c hc
  · rintro ⟨hne, h⟩
    cases w with
    | nil => exact absurd rfl hne
    | cons x v =>
      refine ⟨[x], v, ⟨x, h x (List.mem_cons_self _ _), rfl⟩, ?_, rfl⟩
      exact (Rx.lang_star_cls p v).mpr fun c hc => h c (List.mem_cons_of_mem _ hc)

theorem Rx.lang_opt (a : Rx) (w : List Char) : (Rx.opt a).lang w ↔ a.lang w ∨ w = [] := by
  simp [Rx.opt, Rx.lang]

theorem Rx.lang_rep (n : Nat) (a : Rx) (w : List Char) :
    (Rx.rep n a).lang w
      ↔ ∃ ws : List (List Char), ws.length = n ∧ (∀ u ∈ ws, a.lang u) ∧ w = ws.flatten := by
  induction n generalizing w with
  | zero =>
    simp only [Rx.rep, Rx.lang]
    constructor
    · rintro rfl
      exact ⟨[], rfl, by simp, rfl⟩
    · rintro ⟨ws, hlen, _, rfl⟩
      rw [List.length_eq_zero.mp hlen]
      rfl
  | succ n ih =>
    simp only [Rx.rep, Rx.lang, ih]
    constructor
    · rintro ⟨u, v, hu, ⟨ws, hlen, hws, rfl⟩, rfl⟩
      refine ⟨u :: ws, by simp [hlen], ?_, by simp⟩
      intro x hx
      rcases List.mem_cons.mp hx with rfl | hx
      · exact hu
      · exact hws x hx
    · rintro ⟨ws, hlen, hws, rfl⟩
      cases ws with
      | nil => simp at hlen
      | cons u ws =>
        refine ⟨u, ws.flatten, hws u (List.mem_cons_self _ _), ⟨ws, ?_, ?_, rfl⟩, by simp⟩
        · simpa using hlen
        · exact fun x hx => hws x (List.mem_cons_of_mem _ hx)

theorem Rx.lang_rep_cls (n : Nat) (p : Char → Bool) (w : List Char) :
    (Rx.rep n (Rx.cls p)).lang w ↔ w.length = n ∧ ∀ c ∈ w, p c = true := by
  induction n generalizing w with
  | zero =>
    simp only [Rx.rep, Rx.lang]
    constructor
    · rintro rfl
      simp
    · rintro ⟨h, _⟩
      exact List.length_eq_zero.mp h
  | succ n ih =>
    simp only [Rx.rep, Rx.lang, ih]
    constructor
    · rintro ⟨u, v, ⟨x, hx, rfl⟩, ⟨hlen, hv⟩, rfl⟩
      refine ⟨by simp [hlen], ?_⟩
      intro c hc
      rcases List.mem_cons.mp hc with rfl | hc
      · exact hx
      · exact hv c hc
    · rintro ⟨hlen, h⟩
      cases w with
      | nil => simp at hlen
      | cons x v =>
        refine ⟨[x], v, ⟨x, h x (List.mem_cons_self _ _), rfl⟩, ⟨?_, ?_⟩, rfl⟩
        · simpa using hlen
        · exact fun c hc => h c (List.mem_cons_of_mem _ hc)

/-! ### The validity checks and the grammars -/

theorem Rx.lang_cat_nil (w : List Char) : (Rx.cat []).lang w ↔ w = [] := Iff.rfl

theorem Rx.lang_cat_cons (a : Rx) (as : List Rx) (w : List Char) :
    (Rx.cat (a :: as)).lang w ↔ ∃ u v, a.lang u ∧ (Rx.cat as).lang v ∧ w = u ++ v := Iff.rfl

theorem Rx.lang_group (i : Nat) (a : Rx) (w : List Char) :
    (Rx.group i a).lang w ↔ a.lang w := Iff.rfl

theorem is_valid_timestamp_iff (s : List Char) :
    Producer.is_valid_timestamp_ s = true ↔ timestamp_grammar s := by
  rw [Producer.is_valid_timestamp_, regex_match_isSome]
  simp only [Producer.timestamp_pattern, Rx.lang_cat_cons, Rx.lang_cat_nil, Rx.lang_str,
    Rx.digit, Rx.lang_plus_cls, timestamp_grammar]
  constructor
  · rintro ⟨u, v, rfl, ⟨d, e, ⟨hne, hd⟩, rfl, rfl⟩, rfl⟩
    exact ⟨d, hne, hd, by simp⟩
  · rintro ⟨d, hne, hd, rfl⟩
    exact ⟨_, d, rfl, ⟨d, [], ⟨hne, hd⟩, rfl, by simp⟩, rfl⟩

theorem not_slash_of_isDigit (c : Char) (h : c.isDigit = true) : c ≠ '/' := by
  rintro rfl
  revert h
  decide

theorem is_valid_url_iff (s : List Char) :
    Producer.is_valid_url_ s = true ↔ url_grammar s := by
  rw [Producer.is_valid_url_, regex_match_isSome]
  simp only [Producer.url_pattern, Rx.lang_cat_cons, Rx.lang_cat_nil, Rx.lang_str, Rx.digit,
    Rx.notc, Rx.any, Rx.lang_plus_cls, Rx.lang_opt, Rx.lang_group, Rx.lang_chr,
    Rx.lang_star_cls, url_grammar]
  constructor
  · rintro ⟨_, _, rfl, ⟨scheme, _, ⟨hs, hsc⟩, ⟨_, _, rfl, ⟨a, _, ⟨ha, hac⟩,
      ⟨port, _, hport, ⟨path, _, hpath, rfl, rfl⟩, rfl⟩, rfl⟩, rfl⟩, rfl⟩, rfl⟩
    have hsc' : ':' ∉ scheme := fun hm => by simpa using hsc _ hm
    have hac' : '/' ∉ a := fun hm => by simpa using hac _ hm
    have hport' : '/' ∉ port := by
      rcases hport with ⟨_, _, rfl, ⟨d, _, ⟨_, hd⟩, rfl, rfl⟩, rfl⟩ | rfl
      · intro hm
        simp only [List.append_nil, List.singleton_append, List.mem_cons] at hm
        rcases hm with hm | hm
        · revert hm
          decide
        · exact not_slash_of_isDigit _ (hd _ hm) rfl
      · simp
    refine ⟨scheme, a ++ port, hs, hsc', by simp [ha], ?_, ?_⟩
    · simp only [List.mem_append, not_or]
      exact ⟨hac', hport'⟩
    · rcases hpath with ⟨_, _, rfl, ⟨p, _, hp, rfl, rfl⟩, rfl⟩ | rfl
      · right
        refine ⟨p, ?_, by simp⟩
        intro c hc
        simpa using hp c hc
      · left
        simp
  · rintro ⟨scheme, a, hs, hsc, ha, hac, h⟩
    have hsc' : ∀ c ∈ scheme, (c != ':') = true := by
      intro c hc
      simp only [bne_iff_ne, ne_eq]
      rintro rfl
      exact hsc hc
    have hac' : ∀ c ∈ a, (c != '/') = true := by
      intro c hc
      simp only [bne_iff_ne, ne_eq]
      rintro rfl
      exact hac hc
    rcases h with rfl | ⟨p, hp, rfl⟩
    · exact ⟨_, _, rfl, ⟨scheme, _, ⟨hs, hsc'⟩, ⟨_, _, rfl, ⟨a, _, ⟨ha, hac'⟩,
        ⟨[], _, Or.inr rfl, ⟨[], _, Or.inr rfl, rfl, rfl⟩, rfl⟩, rfl⟩, rfl⟩, rfl⟩, by simp⟩
    · refine ⟨_, _, rfl, ⟨scheme, _, ⟨hs, hsc'⟩, ⟨_, _, rfl, ⟨a, _, ⟨ha, hac'⟩,
        ⟨[], _, Or.inr rfl, ⟨'/' :: p, _, Or.inl ⟨_, _, rfl, ⟨p, _, ?_, rfl, rfl⟩, by simp⟩,
          rfl, rfl⟩, rfl⟩, rfl⟩, rfl⟩, rfl⟩, by simp⟩
      intro c hc
      simpa using hp c hc

theorem intercalate_cons (sep g : List Char) (gs : List (List Char)) :
    sep.intercalate (g :: gs) = g ++ (gs.map fun x => sep ++ x).flatten := by
  induction gs generalizing g with
  | nil => simp [List.intercalate]
  | cons g1 gs ih =>
    have h := ih g1
    simp only [List.intercalate] at h ⊢
    simp only [List.intersperse_cons_cons, List.flatten_cons, List.map_cons, h,
      List.append_assoc]

theorem lang_hyphen_pair (u : List Char) :
    (Rx.group 1 (Rx.cat [Rx.chr '-', Rx.rep 2 Rx.alnum])).lang u
      ↔ ∃ g : List Char, (g.length = 2 ∧ ∀ c ∈ g, c.isAlphanum = true) ∧ u = '-' :: g := by
  simp only [Rx.lang_group, Rx.lang_cat_cons, Rx.lang_cat_nil, Rx.lang_chr, Rx.alnum,
    Rx.lang_rep_cls]
  constructor
  · rintro ⟨_, _, rfl, ⟨g, _, hg, rfl, rfl⟩, rfl⟩
    exact ⟨g, hg, by simp⟩
  · rintro ⟨g, hg, rfl⟩
    exact ⟨_, _, rfl, ⟨g, _, hg, rfl, rfl⟩, by simp⟩

theorem is_valid_device_iff (s : List Char) :
    Producer.is_valid_device_ s = true ↔ device_grammar s := by
  rw [Producer.is_valid_device_, regex_match_isSome]
  simp only [Producer.device_pattern, Rx.lang_cat_cons, Rx.lang_cat_nil, Rx.lang_str]
  simp only [Rx.lang_rep 5, lang_hyphen_pair]
  simp only [Rx.alnum, Rx.lang_rep_cls, device_grammar]
  constructor
  · rintro ⟨_, _, rfl, ⟨g0, _, hg0, ⟨_, _, ⟨ws, hlen, hws, rfl⟩, rfl, rfl⟩, rfl⟩, rfl⟩
    refine ⟨g0 :: ws.map List.tail, by simp [hlen], ?_, ?_⟩
    · intro g hg
      rcases List.mem_cons.mp hg with rfl | hg
      · exact hg0
      · obtain ⟨u, hu, rfl⟩ := List.mem_map.mp hg
        obtain ⟨g', hg', rfl⟩ := hws u hu
        exact hg'
    · rw [intercalate_cons, List.map_map]
      have : ws.map ((fun x => ['-'] ++ x) ∘ List.tail) = ws := by
        conv_rhs => rw [← List.map_id ws]
        apply List.map_congr_left
        intro u hu
        obtain ⟨g, _, rfl⟩ := hws u hu
        rfl
      rw [this]
      simp
  · rintro ⟨groups, hlen, hg, rfl⟩
    cases groups with
    | nil => simp at hlen
    | cons g0 gs =>
      refine ⟨_, _, rfl, ⟨g0, _, hg g0 (List.mem_cons_self _ _),
        ⟨(gs.map fun x => ['-'] ++ x).flatten, [],
          ⟨gs.map fun x => '-' :: x, by simpa using hlen, ?_, rfl⟩, rfl, rfl⟩, rfl⟩, ?_⟩
      · intro u hu
        obtain ⟨g, hgm, rfl⟩ := List.mem_map.mp hu
        exact ⟨g, hg g (List.mem_cons_of_mem _ hgm), rfl⟩
      · rw [intercalate_cons]
        simp

theorem no_newline_of_valid_device (s : List Char) (h : Producer.is_valid_device_ s = true) :
    '\n' ∉ s := by
  rw [Producer.is_valid_device_, regex_match_isSome] at h
  exact Rx.lang_excludes '\n' Producer.device_pattern (by decide) s h

theorem no_newline_of_valid_timestamp (s : List Char)
    (h : Producer.is_valid_timestamp_ s = true) : '\n' ∉ s := by
  rw [Producer.is_valid_timestamp_, regex_match_isSome] at h
  exact Rx.lang_excludes '\n' Producer.timestamp_pattern (by decide) s h

theorem not_valid_nil :
    Producer.is_valid_device_ [] = false ∧ Producer.is_valid_url_ [] = false
      ∧ Producer.is_valid_timestamp_ [] = false := by
  decide

/-! ### What the producer pushes -/

theorem Producer.body_queue (p : Producer) (v : Producer.Lines) :
    (Producer.body p v).1.m_queue_ = p.m_queue_
      ∨ ∃ e : BrowsingEvent, (Producer.is_valid_device_ e.m_device = true
          ∧ Producer.is_valid_url_ e.m_url = true
          ∧ Producer.is_valid_timestamp_ e.m_timestamp = true)
          ∧ (Producer.body p v).1.m_queue_ = p.m_queue_.push e := by
  simp only [Producer.body]
  split_ifs with h1 h2 h3
  · exact Or.inl rfl
  · exact Or.inl rfl
  · exact Or.inl rfl
  · right
    simp only [Bool.not_eq_true, Bool.not_eq_false, Bool.not_eq_true'] at h1 h2 h3
    exact ⟨⟨_, _, _⟩, ⟨h1, h2, h3⟩, rfl⟩

theorem Producer.run_loop_queue (f : Nat) (p : Producer) (v : Producer.Lines)
    (r : Producer × Producer.Lines) (h : Producer.run_loop f p v = some r) :
    ∃ recs : List BrowsingEvent,
      r.1.m_queue_ = ⟨p.m_queue_.m_is_closed_, p.m_queue_.m_events_ ++ recs⟩
        ∧ ∀ e ∈ recs, Producer.is_valid_device_ e.m_device = true
            ∧ Producer.is_valid_url_ e.m_url = true
            ∧ Producer.is_valid_timestamp_ e.m_timestamp = true := by
  induction f generalizing p v with
  | zero => simp [Producer.run_loop] at h
  | succ f ih =>
    cases he : p.m_input_.eof with
    | true =>
      rw [Producer.run_loop_eof f p v he] at h
      simp only [Option.some.injEq] at h
      subst h
      exact ⟨[], by simp, by simp⟩
    | false =>
      rw [Producer.run_loop_step f p v he] at h
      obtain ⟨recs, hq, hv⟩ := ih _ _ h
      rcases Producer.body_queue p v with hb | ⟨e, he', hb⟩
      · rw [hb] at hq
        exact ⟨recs, hq, hv⟩
      · rw [hb] at hq
        refine ⟨e :: recs, by simpa [ConcurrentQueue.push] using hq, ?_⟩
        intro x hx
        rcases List.mem_cons.mp hx with rfl | hx
        · exact he'
        · exact hv x hx

theorem fresh_wf (input : List Char) : (IStream.fresh input).wf := by
  intro h
  cases h

/-- The container after the producer has run is the one the loop leaves, closed; any
fuel above the bound gives it. -/
theorem Producer.output_eq (input : List Char) (f : Nat) (hf : input.length + 1 < f) :
    Producer.output input
      = (Producer.run_loop f ⟨IStream.fresh input, ConcurrentQueue.init⟩ ⟨[], [], []⟩).map
          fun r => r.1.m_queue_.close_queue := by
  have h := (Producer.run_loop_fuel (input.length + 2) f
    ⟨IStream.fresh input, ConcurrentQueue.init⟩ ⟨[], [], []⟩ (fresh_wf input)
    (by simp [IStream.steps, IStream.fresh]) (by simpa [IStream.steps, IStream.fresh] using hf)).1
  simp only [Producer.output, Producer.run, Option.map_map]
  simp only [IStream.fresh] at h ⊢
  rw [h]
  rfl

/-- C6: for every input the producer returns, and every record it has pushed has a device
field, a url field and a timestamp field that each match their grammar as a whole. -/
theorem pushed_records_match_grammars (input : List Char) :
    ∃ q : ConcurrentQueue, Producer.output input = some q
      ∧ ∀ e ∈ q.m_events_, device_grammar e.m_device ∧ url_grammar e.m_url
          ∧ timestamp_grammar e.m_timestamp := by
  obtain ⟨r, hr⟩ := (Producer.run_loop_fuel (input.length + 2) (input.length + 2)
    ⟨IStream.fresh input, ConcurrentQueue.init⟩ ⟨[], [], []⟩ (fresh_wf input)
    (by simp [IStream.steps, IStream.fresh]) (by simp [IStream.steps, IStream.fresh])).2
  obtain ⟨recs, hq, hv⟩ := Producer.run_loop_queue _ _ _ _ hr
  refine ⟨r.1.m_queue_.close_queue, ?_, ?_⟩
  · rw [Producer.output_eq input (input.length + 2) (by omega), hr]
    rfl
  · intro e he
    rw [hq] at he
    simp only [ConcurrentQueue.close_queue, ConcurrentQueue.init, List.nil_append] at he
    obtain ⟨h1, h2, h3⟩ := hv e he
    exact ⟨(is_valid_device_iff _).mp h1, (is_valid_url_iff _).mp h2,
      (is_valid_timestamp_iff _).mp h3⟩

/-- C7, the failing input: the four lines device, url, timestamp, device with no line
feed after the last.  The producer pushes two records; the second is made of the last
line and of the url and timestamp lines read for the first record, and no three
consecutive lines of the input are its fields. -/
theorem stale_lines_are_published :
    published (join_lines [sample_device, sample_url, sample_timestamp, other_device])
        = some [⟨sample_device, sample_url, sample_timestamp⟩,
            ⟨other_device, sample_url, sample_timestamp⟩]
      ∧ ¬ ∃ i : Nat,
          [sample_device, sample_url, sample_timestamp, other_device][i]? = some other_device
            ∧ [sample_device, sample_url, sample_timestamp, other_device][i + 1]?
                = some sample_url
            ∧ [sample_device, sample_url, sample_timestamp, other_device][i + 2]?
                = some sample_timestamp := by
  refine ⟨by decide, ?_⟩
  rintro ⟨i, h0, h1, _⟩
  rcases i with _ | _ | _ | i
  · revert h0; decide
  · revert h0; decide
  · revert h0; decide
  · simp at h1

/-! ### The producer does not read the container -/

theorem Producer.body_rebase (c : Bool) (l : List BrowsingEvent) (p : Producer)
    (v : Producer.Lines) :
    Producer.body (Producer.rebase c l p) v
      = (Producer.rebase c l (Producer.body p v).1, (Producer.body p v).2) := by
  simp only [Producer.body, Producer.rebase]
  split_ifs <;> simp [Producer.publish, ConcurrentQueue.push]

/-- What the producer pushes does not depend on what the container holds, so pulls that
run between the pushes do not change the records pushed or their order. -/
theorem Producer.run_loop_rebase (c : Bool) (l : List BrowsingEvent) (f : Nat)
    (p : Producer) (v : Producer.Lines) :
    Producer.run_loop f (Producer.rebase c l p) v
      = (Producer.run_loop f p v).map fun r => (Producer.rebase c l r.1, r.2) := by
  induction f generalizing p v with
  | zero => rfl
  | succ f ih =>
    cases he : p.m_input_.eof with
    | true =>
      rw [Producer.run_loop_eof f p v he, Producer.run_loop_eof f (Producer.rebase c l p) v he]
      rfl
    | false =>
      rw [Producer.run_loop_step f p v he,
        Producer.run_loop_step f (Producer.rebase c l p) v he, Producer.body_rebase, ih]

/-! ### Passes of the loop on known lines -/

theorem Producer.run_loop_open (f : Nat) (buf : List Char) (fb : Bool) (q : ConcurrentQueue)
    (v : Producer.Lines) :
    Producer.run_loop (f + 1) ⟨⟨buf, false, fb⟩, q⟩ v
      = Producer.run_loop f (Producer.body ⟨⟨buf, false, fb⟩, q⟩ v).1
          (Producer.body ⟨⟨buf, false, fb⟩, q⟩ v).2 :=
  Producer.run_loop_step f _ v rfl

theorem Producer.run_loop_at_eof (f : Nat) (buf : List Char) (fb : Bool)
    (q : ConcurrentQueue) (v : Producer.Lines) :
    Producer.run_loop (f + 1) ⟨⟨buf, true, fb⟩, q⟩ v = some (⟨⟨buf, true, fb⟩, q⟩, v) :=
  Producer.run_loop_eof f _ v rfl

theorem map_close_queue (o : Option (Producer × Producer.Lines)) (q : ConcurrentQueue)
    (h : o.map (fun r => r.1.m_queue_) = some q) :
    o.map (fun r => r.1.m_queue_.close_queue) = some q.close_queue := by
  cases o with
  | none => simp at h
  | some r =>
    simp only [Option.map_some', Option.some.injEq] at h ⊢
    rw [h]

theorem Producer.body_triple (d u t rest : List Char) (q : ConcurrentQueue)
    (v : Producer.Lines) (hd : Producer.is_valid_device_ d = true)
    (hu : Producer.is_valid_url_ u = true) (hun : '\n' ∉ u)
    (ht : Producer.is_valid_timestamp_ t = true) :
    Producer.body ⟨⟨d ++ '\n' :: (u ++ '\n' :: (t ++ '\n' :: rest)), false, false⟩, q⟩ v
      = (⟨⟨rest, false, false⟩, q.push ⟨d, u, t⟩⟩, ⟨d, u, t⟩) := by
  simp only [Producer.body, getline_line _ _ _ (no_newline_of_valid_device d hd),
    getline_line _ _ _ hun, getline_line _ _ _ (no_newline_of_valid_timestamp t ht), hd, hu,
    ht, Producer.publish, Bool.not_true, Bool.false_eq_true, if_false]

theorem Producer.body_triple_last (d u t : List Char) (q : ConcurrentQueue)
    (v : Producer.Lines) (hd : Producer.is_valid_device_ d = true)
    (hu : Producer.is_valid_url_ u = true) (hun : '\n' ∉ u)
    (ht : Producer.is_valid_timestamp_ t = true) :
    Producer.body ⟨⟨d ++ '\n' :: (u ++ '\n' :: t), false, false⟩, q⟩ v
      = (⟨⟨[], true, t.isEmpty⟩, q.push ⟨d, u, t⟩⟩, ⟨d, u, t⟩) := by
  simp only [Producer.body, getline_line _ _ _ (no_newline_of_valid_device d hd),
    getline_line _ _ _ hun, getline_last _ _ (no_newline_of_valid_timestamp t ht), hd, hu,
    ht, Producer.publish, Bool.not_true, Bool.false_eq_true, if_false]

theorem Producer.body_nil (q : ConcurrentQueue) (v : Producer.Lines) :
    Producer.body ⟨⟨[], false, false⟩, q⟩ v
      = (⟨⟨[], true, true⟩, q⟩, { v with first_line := [] }) := by
  simp only [Producer.body, getline_last [] _ (List.not_mem_nil _), not_valid_nil.1,
    Bool.not_false, if_true, List.isEmpty_nil]

theorem Producer.run_loop_nil (f : Nat) (q : ConcurrentQueue) (v : Producer.Lines) :
    Producer.run_loop (f + 2) ⟨⟨[], false, false⟩, q⟩ v
      = some (⟨⟨[], true, true⟩, q⟩, { v with first_line := [] }) := by
  rw [Producer.run_loop_open, Producer.body_nil, Producer.run_loop_at_eof]

theorem Producer.run_loop_unlines (rs : List BrowsingEvent)
    (hvalid : ∀ r ∈ rs, Producer.is_valid_device_ r.m_device = true
      ∧ Producer.is_valid_url_ r.m_url = true ∧ '\n' ∉ r.m_url
      ∧ Producer.is_valid_timestamp_ r.m_timestamp = true)
    (f : Nat) (q : ConcurrentQueue) (v : Producer.Lines)
    (hf : (unlines (record_lines rs)).length + 1 < f) :
    (Producer.run_loop f ⟨⟨unlines (record_lines rs), false, false⟩, q⟩ v).map
        (fun r => r.1.m_queue_)
      = some ⟨q.m_is_closed_, q.m_events_ ++ rs⟩ := by
  induction rs generalizing f q v with
  | nil =>
    obtain ⟨f, rfl⟩ : ∃ k, f = k + 2 := ⟨f - 2, by omega⟩
    simp [record_lines, unlines, Producer.run_loop_nil]
  | cons r rs ih =>
    obtain ⟨hd, hu, hun, ht⟩ := hvalid r (List.mem_cons_self _ _)
    simp only [record_lines, unlines, List.length_append, List.length_cons] at hf ⊢
    obtain ⟨f, rfl⟩ : ∃ k, f = k + 1 := ⟨f - 1, by omega⟩
    rw [Producer.run_loop_open, Producer.body_triple _ _ _ _ _ _ hd hu hun ht]
    rw [ih (fun x hx => hvalid x (List.mem_cons_of_mem _ hx)) f _ _ (by omega)]
    simp [ConcurrentQueue.push]

theorem Producer.run_loop_join_lines (r : BrowsingEvent) (rs : List BrowsingEvent)
    (hvalid : ∀ x ∈ r :: rs, Producer.is_valid_device_ x.m_device = true
      ∧ Producer.is_valid_url_ x.m_url = true ∧ '\n' ∉ x.m_url
      ∧ Producer.is_valid_timestamp_ x.m_timestamp = true)
    (f : Nat) (q : ConcurrentQueue) (v : Producer.Lines)
    (hf : (join_lines (record_lines (r :: rs))).length + 1 < f) :
    (Producer.run_loop f ⟨⟨join_lines (record_lines (r :: rs)), false, false⟩, q⟩ v).map
        (fun x => x.1.m_queue_)
      = some ⟨q.m_is_closed_, q.m_events_ ++ r :: rs⟩ := by
  induction rs generalizing r f q v with
  | nil =>
    obtain ⟨hd, hu, hun, ht⟩ := hvalid r (List.mem_cons_self _ _)
    simp only [record_lines, join_lines] at hf ⊢
    obtain ⟨f, rfl⟩ : ∃ k, f = k + 2 := ⟨f - 2, by omega⟩
    rw [Producer.run_loop_open, Producer.body_triple_last _ _ _ _ _ hd hu hun ht,
      Producer.run_loop_at_eof]
    simp [ConcurrentQueue.push]
  | cons r' rs ih =>
    obtain ⟨hd, hu, hun, ht⟩ := hvalid r (List.mem_cons_self _ _)
    have hj : join_lines (record_lines (r :: r' :: rs))
        = r.m_device ++ '\n' :: (r.m_url ++ '\n' :: (r.m_timestamp ++ '\n' ::
            join_lines (record_lines (r' :: rs)))) := by
      simp [record_lines, join_lines]
    rw [hj] at hf ⊢
    simp only [List.length_append, List.length_cons] at hf
    obtain ⟨f, rfl⟩ : ∃ k, f = k + 1 := ⟨f - 1, by omega⟩
    rw [Producer.run_loop_open, Producer.body_triple _ _ _ _ _ _ hd hu hun ht]
    rw [ih r' (fun x hx => hvalid x (List.mem_cons_of_mem _ hx)) f _ _ (by omega)]
    simp [ConcurrentQueue.push]

/-- C8: for an input made of M valid device, url, timestamp triples, M ≥ 0, each line
followed by a line feed or all but the last, the producer returns having pushed exactly
the M records of the triples, in input order, and having closed the container. -/
theorem valid_triples_are_published (rs : List BrowsingEvent)
    (hvalid : ∀ r ∈ rs, Producer.is_valid_device_ r.m_device = true
      ∧ Producer.is_valid_url_ r.m_url = true ∧ '\n' ∉ r.m_url
      ∧ Producer.is_valid_timestamp_ r.m_timestamp = true) :
    Producer.output (unlines (record_lines rs)) = some ⟨true, rs⟩
      ∧ Producer.output (join_lines (record_lines rs)) = some ⟨true, rs⟩ := by
  constructor
  · rw [Producer.output_eq _ _ (Nat.lt_succ_self _)]
    exact map_close_queue _ _
      (Producer.run_loop_unlines rs hvalid _ ConcurrentQueue.init _ (Nat.lt_succ_self _))
  · rw [Producer.output_eq _ _ (Nat.lt_succ_self _)]
    cases rs with
    | nil =>
      exact map_close_queue _ _
        (Producer.run_loop_unlines [] hvalid _ ConcurrentQueue.init _ (Nat.lt_succ_self _))
    | cons r rs =>
      exact map_close_queue _ _
        (Producer.run_loop_join_lines r rs hvalid _ ConcurrentQueue.init _
          (Nat.lt_succ_self _))

theorem valid_triples_are_published_witness :
    Producer.output (unlines [sample_device, sample_url, sample_timestamp])
        = some ⟨true, [⟨sample_device, sample_url, sample_timestamp⟩]⟩
      ∧ Producer.output (join_lines [sample_device, sample_url, sample_timestamp])
        = some ⟨true, [⟨sample_device, sample_url, sample_timestamp⟩]⟩ :=
  valid_triples_are_published [⟨sample_device, sample_url, sample_timestamp⟩] (by decide)

/-! ### Line buffers left by earlier passes -/

theorem getline_good_indep (is : IStream) (s1 s2 : List Char) (hg : is.good = true) :
    getline is s1 = getline is s2 := by
  simp [getline, hg]

theorem getline_not_good_stream (is : IStream) (str : List Char) (h : is.good = false) :
    (getline is str).1.good = false := by
  rw [getline_not_good is str h]
  simp [IStream.good]

theorem getline_twice_not_good (is : IStream) (s1 s2 : List Char) (h : is.good = false) :
    (getline (getline is s1).1 s2).1 = (getline is s1).1 := by
  rw [getline_not_good _ s2 (getline_not_good_stream is s1 h), getline_not_good is s1 h]

theorem Producer.body_sim (p : Producer) (v1 v2 : Producer.Lines) (hwf : p.m_input_.wf)
    (he : p.m_input_.eof = false) (hR : Producer.stale_equiv v1 v2) :
    (Producer.body p v1).1 = (Producer.body p v2).1
      ∧ Producer.stale_equiv (Producer.body p v1).2 (Producer.body p v2).2 := by
  have hg := good_of_wf_not_eof _ hwf he
  have e1 := getline_good_indep p.m_input_ v1.first_line v2.first_line hg
  simp only [Producer.body, e1]
  generalize getline p.m_input_ v2.first_line = r1
  by_cases hd : Producer.is_valid_device_ r1.2 = true
  swap
  · simp only [hd, Bool.not_eq_true] at hd ⊢
    simp only [hd, Bool.not_false, if_true, true_and]
    exact hR
  simp only [hd, Bool.not_true, Bool.false_eq_true, if_false]
  cases hg1 : r1.1.good with
  | true =>
    have e2 := getline_good_indep r1.1 v1.second_line v2.second_line hg1
    simp only [e2]
    generalize getline r1.1 v2.second_line = r2
    by_cases hu : Producer.is_valid_url_ r2.2 = true
    swap
    · simp only [Bool.not_eq_true] at hu
      simp only [hu, Bool.not_false, if_true, true_and]
      rcases hR with h | ⟨h, _⟩
      · exact Or.inl h
      · exact Or.inr ⟨h, Or.inl rfl⟩
    simp only [hu, Bool.not_true, Bool.false_eq_true, if_false]
    cases hg2 : r2.1.good with
    | true =>
      have e3 := getline_good_indep r2.1 v1.third_line v2.third_line hg2
      simp only [e3]
      refine ⟨trivial, ?_⟩
      split_ifs <;> exact Or.inr ⟨rfl, Or.inl rfl⟩
    | false =>
      simp only [getline_not_good r2.1 _ hg2]
      rcases hR with ⟨h1, h2⟩ | ⟨h, _⟩
      · simp only [h1, h2, Bool.not_false, if_true, true_and]
        exact Or.inl ⟨h1, h2⟩
      · simp only [h]
        refine ⟨trivial, ?_⟩
        split_ifs <;> exact Or.inr ⟨rfl, Or.inl rfl⟩
  | false =>
    have h3 := fun s t => getline_twice_not_good r1.1 s t hg1
    have h2 : ∀ s, (getline r1.1 s).2 = s := fun s => by rw [getline_not_good r1.1 s hg1]
    have h2' : ∀ s t, (getline r1.1 s).1 = (getline r1.1 t).1 := fun s t => by
      rw [getline_not_good r1.1 s hg1, getline_not_good r1.1 t hg1]
    have h4 : ∀ s t, (getline (getline r1.1 s).1 t).2 = t := fun s t => by
      rw [getline_not_good _ t (getline_not_good_stream r1.1 s hg1)]
    simp only [h2, h3, h4]
    rcases hR with ⟨ht1, ht2⟩ | ⟨ht, hs | ⟨hs1, hs2⟩⟩
    · simp only [ht1, ht2, Bool.not_false, if_true, ite_self]
      exact ⟨by rw [h2' v1.second_line v2.second_line], Or.inl ⟨ht1, ht2⟩⟩
    · simp only [ht, hs]
      refine ⟨trivial, ?_⟩
      split_ifs <;> exact Or.inr ⟨rfl, Or.inl rfl⟩
    · simp only [hs1, hs2, Bool.not_false, if_true]
      exact ⟨by rw [h2' v1.second_line v2.second_line], Or.inr ⟨ht, Or.inr ⟨hs1, hs2⟩⟩⟩

theorem Producer.run_loop_sim (f : Nat) (p : Producer) (v1 v2 : Producer.Lines)
    (hwf : p.m_input_.wf) (hR : Producer.stale_equiv v1 v2) :
    (Producer.run_loop f p v1).map (fun r => r.1)
      = (Producer.run_loop f p v2).map (fun r => r.1) := by
  induction f generalizing p v1 v2 with
  | zero => rfl
  | succ f ih =>
    cases he : p.m_input_.eof with
    | true => simp [Producer.run_loop_eof f p _ he]
    | false =>
      rw [Producer.run_loop_step f p v1 he, Producer.run_loop_step f p v2 he]
      obtain ⟨hp, hR'⟩ := Producer.body_sim p v1 v2 hwf he hR
      rw [hp]
      exact ih _ _ _ (Producer.body_wf p v2 hwf) hR'

theorem Producer.output_of_stale (rest : List Char) (v : Producer.Lines) (f : Nat)
    (hf : rest.length + 1 < f) (hR : Producer.stale_equiv v ⟨[], [], []⟩) :
    (Producer.run_loop f ⟨⟨rest, false, false⟩, ConcurrentQueue.init⟩ v).map
        (fun r => r.1.m_queue_.close_queue)
      = Producer.output rest := by
  rw [Producer.output_eq rest f hf]
  have h := Producer.run_loop_sim f ⟨IStream.fresh rest, ConcurrentQueue.init⟩ v ⟨[], [], []⟩
    (fresh_wf rest) hR
  have h' := congrArg (Option.map fun p : Producer => p.m_queue_.close_queue) h
  simp only [Option.map_map] at h'
  exact h'

theorem Producer.body_bad_url (d x rest : List Char) (q : ConcurrentQueue)
    (v : Producer.Lines) (hd : Producer.is_valid_device_ d = true)
    (hx : Producer.is_valid_url_ x = false) (hxn : '\n' ∉ x) :
    Producer.body ⟨⟨d ++ '\n' :: (x ++ '\n' :: rest), false, false⟩, q⟩ v
      = (⟨⟨rest, false, false⟩, q⟩, ⟨d, x, v.third_line⟩) := by
  simp only [Producer.body, getline_line _ _ _ (no_newline_of_valid_device d hd),
    getline_line _ _ _ hxn, hd, hx, Bool.not_true, Bool.not_false, Bool.false_eq_true,
    if_false, if_true]

theorem Producer.body_bad_url_last (d x : List Char) (q : ConcurrentQueue)
    (v : Producer.Lines) (hd : Producer.is_valid_device_ d = true)
    (hx : Producer.is_valid_url_ x = false) (hxn : '\n' ∉ x) :
    Producer.body ⟨⟨d ++ '\n' :: x, false, false⟩, q⟩ v
      = (⟨⟨[], true, x.isEmpty⟩, q⟩, ⟨d, x, v.third_line⟩) := by
  simp only [Producer.body, getline_line _ _ _ (no_newline_of_valid_device d hd),
    getline_last _ _ hxn, hd, hx, Bool.not_true, Bool.not_false, Bool.false_eq_true,
    if_false, if_true]

theorem Producer.body_bad_timestamp (d u t rest : List Char) (q : ConcurrentQueue)
    (v : Producer.Lines) (hd : Producer.is_valid_device_ d = true)
    (hu : Producer.is_valid_url_ u = true) (hun : '\n' ∉ u)
    (ht : Producer.is_valid_timestamp_ t = false) (htn : '\n' ∉ t) :
    Producer.body ⟨⟨d ++ '\n' :: (u ++ '\n' :: (t ++ '\n' :: rest)), false, false⟩, q⟩ v
      = (⟨⟨rest, false, false⟩, q⟩, ⟨d, u, t⟩) := by
  simp only [Producer.body, getline_line _ _ _ (no_newline_of_valid_device d hd),
    getline_line _ _ _ hun, getline_line _ _ _ htn, hd, hu, ht, Bool.not_true,
    Bool.not_false, Bool.false_eq_true, if_false, if_true]

theorem Producer.body_bad_timestamp_last (d u t : List Char) (q : ConcurrentQueue)
    (v : Producer.Lines) (hd : Producer.is_valid_device_ d = true)
    (hu : Producer.is_valid_url_ u = true) (hun : '\n' ∉ u)
    (ht : Producer.is_valid_timestamp_ t = false) (htn : '\n' ∉ t) :
    Producer.body ⟨⟨d ++ '\n' :: (u ++ '\n' :: t), false, false⟩, q⟩ v
      = (⟨⟨[], true, t.isEmpty⟩, q⟩, ⟨d, u, t⟩) := by
  simp only [Producer.body, getline_line _ _ _ (no_newline_of_valid_device d hd),
    getline_line _ _ _ hun, getline_last _ _ htn, hd, hu, ht, Bool.not_true,
    Bool.not_false, Bool.false_eq_true, if_false, if_true]

/-- C9: lines that were read are not looked at again.  After a valid device line `d`, a
line `x` that fails the url check is dropped together with `d`, also when `x` is itself
a valid device line: the producer ends with the container it ends with on the rest of
the input alone.  After a valid device line and a valid url line, a line that fails the
timestamp check is dropped together with the two before it in the same way.  When the
dropped lines end the input, nothing is pushed. -/
theorem resynchronisation_drops_read_lines (d rest : List Char)
    (hd : Producer.is_valid_device_ d = true) :
    (∀ x : List Char, Producer.is_valid_url_ x = false → '\n' ∉ x →
        Producer.output (d ++ '\n' :: (x ++ '\n' :: rest)) = Producer.output rest
          ∧ Producer.output (d ++ '\n' :: x) = some ⟨true, []⟩)
      ∧ (∀ u t : List Char, Producer.is_valid_url_ u = true → '\n' ∉ u →
          Producer.is_valid_timestamp_ t = false → '\n' ∉ t →
          Producer.output (d ++ '\n' :: (u ++ '\n' :: (t ++ '\n' :: rest)))
              = Producer.output rest
            ∧ Producer.output (d ++ '\n' :: (u ++ '\n' :: t)) = some ⟨true, []⟩) := by
  refine ⟨?_, ?_⟩
  · intro x hx hxn
    constructor
    · rw [Producer.output_eq _ _ (Nat.lt_succ_self _)]
      simp only [IStream.fresh, Nat.succ_eq_add_one]
      rw [Producer.run_loop_open, Producer.body_bad_url d x rest _ _ hd hx hxn]
      apply Producer.output_of_stale
      · simp only [List.length_append, List.length_cons]
        omega
      · exact Or.inr ⟨rfl, Or.inr ⟨hx, not_valid_nil.2.1⟩⟩
    · rw [Producer.output_eq _ _ (Nat.lt_succ_self _)]
      simp only [IStream.fresh, Nat.succ_eq_add_one]
      rw [Producer.run_loop_open, Producer.body_bad_url_last d x _ _ hd hx hxn,
        Producer.run_loop_at_eof]
      rfl
  · intro u t hu hun ht htn
    constructor
    · rw [Producer.output_eq _ _ (Nat.lt_succ_self _)]
      simp only [IStream.fresh, Nat.succ_eq_add_one]
      rw [Producer.run_loop_open, Producer.body_bad_timestamp d u t rest _ _ hd hu hun ht htn]
      apply Producer.output_of_stale
      · simp only [List.length_append, List.length_cons]
        omega
      · exact Or.inl ⟨ht, not_valid_nil.2.2⟩
    · rw [Producer.output_eq _ _ (Nat.lt_succ_self _)]
      simp only [IStream.fresh, Nat.succ_eq_add_one]
      rw [Producer.run_loop_open, Producer.body_bad_timestamp_last d u t _ _ hd hu hun ht htn,
        Producer.run_loop_at_eof]
      rfl

theorem resynchronisation_drops_read_lines_witness :
    (Producer.output (unlines [sample_device, other_device, sample_url, sample_timestamp])
        = Producer.output (unlines [sample_url, sample_timestamp])
      ∧ Producer.output (unlines [sample_url, sample_timestamp]) = some ⟨true, []⟩)
      ∧ Producer.output
            (unlines [sample_device, sample_url, sample_device, sample_url, sample_timestamp])
          = Producer.output (unlines [sample_url, sample_timestamp]) :=
  ⟨⟨((resynchronisation_drops_read_lines sample_device
        (unlines [sample_url, sample_timestamp]) (by decide)).1
        other_device (by decide) (by decide)).1, by decide⟩,
    ((resynchronisation_drops_read_lines sample_device
        (unlines [sample_url, sample_timestamp]) (by decide)).2
        sample_url sample_device (by decide) (by decide) (by decide) (by decide)).1⟩

/-! ### Inputs of fewer than three lines -/

theorem line_count_line (l rest : List Char) (hl : '\n' ∉ l) :
    line_count (l ++ '\n' :: rest) = line_count rest + 1 := by
  have hc : List.count '\n' l = 0 := List.count_eq_zero.mpr hl
  cases rest with
  | nil => simp [line_count, hc]
  | cons a r =>
    have hlast : (l ++ '\n' :: a :: r).getLast? = (a :: r).getLast? := by
      rw [List.getLast?_append, List.getLast?_cons_cons]
      cases h : (a :: r).getLast? with
      | none => simp at h
      | some y => rfl
    simp only [line_count, hlast, List.count_append, hc, List.count_cons_self]
    omega

theorem line_count_no_newline (buf : List Char) (h : '\n' ∉ buf) (h0 : line_count buf = 0) :
    buf = [] := by
  by_contra hne
  have hlast := List.getLast?_eq_getLast _ hne
  have hmem := List.getLast_mem hne
  have : buf.getLast hne ≠ '\n' := fun he => h (he ▸ hmem)
  simp [line_count, hlast, this] at h0

theorem getline_avail (is : IStream) (str : List Char) :
    (getline is str).1.avail ≤ is.avail - 1
      ∧ (is.avail = 0 → (getline is str).2 = str ∨ (getline is str).2 = []) := by
  rcases getline_cases is str with ⟨hg, he⟩ | ⟨hg, hn, he⟩ | ⟨hg, l, rest, hl, hb, he⟩
  · rw [he]
    refine ⟨?_, fun _ => Or.inl rfl⟩
    simp only [IStream.good, Bool.and_eq_false_iff, Bool.not_eq_false'] at hg
    simp [IStream.avail, IStream.good]
  · rw [he]
    refine ⟨by simp [IStream.avail, IStream.good], ?_⟩
    intro h0
    simp only [IStream.avail, hg, if_true] at h0
    exact Or.inr (line_count_no_newline _ hn h0)
  · rw [he]
    have hnew : (IStream.mk rest false false).avail = line_count rest := by
      simp [IStream.avail, IStream.good]
    have hold : is.avail = line_count rest + 1 := by
      simp only [IStream.avail, hg, if_true, hb, line_count_line l rest hl]
    rw [hold]
    simp only [hnew]
    refine ⟨by omega, fun h => by omega⟩

theorem Producer.body_few (p : Producer) (v : Producer.Lines) (ht : v.third_line = [])
    (ha : p.m_input_.avail ≤ 2) :
    (Producer.body p v).1.m_queue_ = p.m_queue_ ∧ (Producer.body p v).2.third_line = []
      ∧ (Producer.body p v).1.m_input_.avail ≤ 2 := by
  have h1 := (getline_avail p.m_input_ v.first_line).1
  have h2 := fun s => (getline_avail (getline p.m_input_ v.first_line).1 s).1
  have h3 := fun s t =>
    getline_avail (getline (getline p.m_input_ v.first_line).1 s).1 t
  have h3nil : ∀ s, (getline (getline (getline p.m_input_ v.first_line).1 s).1
      v.third_line).2 = [] := by
    intro s
    have := h2 s
    rcases (h3 s v.third_line).2 (by omega) with h | h
    · rw [h, ht]
    · exact h
  simp only [Producer.body]
  split_ifs with c1 c2 c3
  · refine ⟨rfl, ht, ?_⟩
    dsimp only
    omega
  · refine ⟨rfl, ht, ?_⟩
    have := h2 v.second_line
    dsimp only
    omega
  · refine ⟨rfl, h3nil _, ?_⟩
    have := h2 v.second_line
    have := (h3 v.second_line v.third_line).1
    dsimp only
    omega
  · exfalso
    simp only [h3nil, not_valid_nil.2.2, Bool.not_false, not_true_eq_false] at c3

theorem Producer.run_loop_few (f : Nat) (p : Producer) (v : Producer.Lines)
    (r : Producer × Producer.Lines) (ht : v.third_line = []) (ha : p.m_input_.avail ≤ 2)
    (h : Producer.run_loop f p v = some r) : r.1.m_queue_ = p.m_queue_ := by
  induction f generalizing p v with
  | zero => simp [Producer.run_loop] at h
  | succ f ih =>
    cases he : p.m_input_.eof with
    | true =>
      rw [Producer.run_loop_eof f p v he] at h
      simp only [Option.some.injEq] at h
      rw [← h]
    | false =>
      rw [Producer.run_loop_step f p v he] at h
      obtain ⟨hq, ht', ha'⟩ := Producer.body_few p v ht ha
      rw [ih _ _ ht' ha' h, hq]

theorem Producer.output_few (input : List Char) (h : line_count input < 3) :
    Producer.output input = some ⟨true, []⟩ := by
  obtain ⟨r, hr⟩ := (Producer.run_loop_fuel (input.length + 2) (input.length + 2)
    ⟨IStream.fresh input, ConcurrentQueue.init⟩ ⟨[], [], []⟩ (fresh_wf input)
    (by simp [IStream.steps, IStream.fresh]) (by simp [IStream.steps, IStream.fresh])).2
  have hq := Producer.run_loop_few _ _ _ r rfl
    (by simp only [IStream.avail, IStream.fresh, IStream.good]; simp; omega) hr
  rw [Producer.output_eq input (input.length + 2) (by omega), hr]
  simp only [Option.map_some', hq]
  rfl

theorem System.NothingPushed.after_step {s s' : System} (t : ThreadId) (inv : s.NothingPushed)
    (h : s.step t = some s') : s'.NothingPushed := by
  obtain ⟨hcount, hpend, hev, hnc⟩ := inv
  cases t with
  | producer =>
    simp only [System.step, hpend] at h
    split at h
    · cases h
    · simp only [Option.some.injEq] at h
      subst h
      exact ⟨hcount, rfl, hev, hnc⟩
  | consumer i =>
    simp only [System.step, List.get?_eq_getElem?] at h
    split at h
    · cases h
    · rename_i t ht
      have hmem : t ∈ s.consumers := List.getElem?_mem ht
      split at h
      · cases h
      · rename_i hpc
        exact absurd hpc (hnc t hmem)
      · split at h
        · cases h
        · rename_i rv event q hpull
          simp only [Option.some.injEq] at h
          subst h
          obtain ⟨c, l, hq⟩ : ∃ c l, s.communicator = ⟨c, l⟩ := ⟨_, _, rfl⟩
          rw [hq] at hpull hev
          simp only at hev
          subst hev
          cases c with
          | false => simp [ConcurrentQueue.pull_one] at hpull
          | true =>
            rw [pull_one_closed_nil] at hpull
            simp only [PullOutcome.returned.injEq] at hpull
            obtain ⟨rfl, rfl, rfl⟩ := hpull
            refine ⟨hcount, hpend, rfl, ?_⟩
            intro t' ht' hpc'
            rcases List.mem_or_eq_of_mem_set ht' with hm | heq
            · exact hnc t' hm hpc'
            · rw [heq] at hpc'
              simp at hpc'

theorem System.NothingPushed.after_exec (schedule : List ThreadId) {s s' : System}
    (inv : s.NothingPushed) (h : s.exec schedule = some s') : s'.NothingPushed := by
  induction schedule generalizing s with
  | nil =>
    simp only [System.exec, Option.some.injEq] at h
    exact h ▸ inv
  | cons t ts ih =>
    simp only [System.exec] at h
    cases hstep : s.step t with
    | none => simp [hstep] at h
    | some s1 =>
      rw [hstep] at h
      exact ih (inv.after_step t hstep) h

theorem System.NothingPushed.initially (n : Nat) : (System.init [] n).NothingPushed where
  count := rfl
  pending := rfl
  events := rfl
  not_classifying := by
    intro t ht
    simp only [System.init, List.mem_replicate] at ht
    rw [ht.2]
    simp [ConsumerThread.start]

/-- C10: on an input of fewer than three lines the producer returns with nothing pushed
and the container closed, every complete run of the program writes 0, and there is a
complete run. -/
theorem fewer_than_three_lines (input : List Char) (h : line_count input < 3) :
    Producer.output input = some ⟨true, []⟩
      ∧ published input = some []
      ∧ (∀ (schedule : List ThreadId) (n : Nat), Spmc.main input schedule = some n → n = 0)
      ∧ ∃ schedule : List ThreadId, Spmc.main input schedule = some 0 := by
  have hout := Producer.output_few input h
  have hpub : published input = some [] := by simp [published, hout]
  refine ⟨hout, hpub, ?_, ⟨[.producer, .consumer 0, .consumer 1], ?_⟩⟩
  · intro schedule n hmain
    simp only [Spmc.main, hpub, Option.some_bind] at hmain
    cases hexec : (System.init [] 2).exec schedule with
    | none => simp [hexec] at hmain
    | some s =>
      have inv := (System.NothingPushed.initially 2).after_exec schedule hexec
      simp only [hexec, Option.some_bind] at hmain
      split at hmain
      · simp only [Option.some.injEq, Storage.get_count] at hmain
        rw [← hmain, inv.count]
      · cases hmain
  · simp only [Spmc.main, hpub, Option.some_bind]
    decide

theorem fewer_than_three_lines_witness :
    Producer.output (join_lines [sample_device, sample_timestamp]) = some ⟨true, []⟩
      ∧ Producer.output (join_lines [sample_device, sample_url]) = some ⟨true, []⟩ :=
  ⟨(fewer_than_three_lines (join_lines [sample_device, sample_timestamp]) (by decide)).1,
    (fewer_than_three_lines (join_lines [sample_device, sample_url]) (by decide)).1⟩

/-! ### The producer returns -/

/-- C15: on every finite input, and whatever the container holds at the start, `run`
returns, within the bound on the evaluations of the loop condition, and the container is
closed when it returns. -/
theorem producer_run_terminates_closed (input : List Char) (q : ConcurrentQueue) :
    ∃ p : Producer, Producer.run ⟨IStream.fresh input, q⟩ = some p
      ∧ p.m_queue_.m_is_closed_ = true := by
  obtain ⟨r, hr⟩ := (Producer.run_loop_fuel (input.length + 2) (input.length + 2)
    ⟨IStream.fresh input, q⟩ ⟨[], [], []⟩ (fresh_wf input)
    (by simp [IStream.steps, IStream.fresh]) (by simp [IStream.steps, IStream.fresh])).2
  refine ⟨{ r.1 with m_queue_ := r.1.m_queue_.close_queue }, ?_, rfl⟩
  simp only [Producer.run, IStream.fresh] at hr ⊢
  rw [hr]
  rfl

/-! ### The closed flag -/

theorem apply_keeps_closed (q : ConcurrentQueue) (op : QueueOp)
    (h : q.m_is_closed_ = true) : (q.apply op).m_is_closed_ = true := by
  cases op with
  | push event => exact h
  | close_queue => rfl
  | pull_one event =>
    simp only [ConcurrentQueue.apply]
    cases hp : q.pull_one event with
    | waiting => exact h
    | returned rv ev q' =>
      simp only [ConcurrentQueue.pull_one] at hp
      split_ifs at hp <;> simp only [PullOutcome.returned.injEq] at hp <;>
        (obtain ⟨_, _, rfl⟩ := hp; exact h)

theorem step_keeps_closed {s s' : System} (t : ThreadId) (h : s.step t = some s')
    (hc : s.communicator.m_is_closed_ = true) : s'.communicator.m_is_closed_ = true := by
  cases t with
  | producer =>
    simp only [System.step] at h
    split at h
    · simp only [Option.some.injEq] at h
      subst h
      exact hc
    · split at h
      · cases h
      · simp only [Option.some.injEq] at h
        subst h
        rfl
  | consumer i =>
    simp only [System.step] at h
    split at h
    · cases h
    · rename_i t ht
      split at h
      · cases h
      · simp only [Option.some.injEq] at h
        subst h
        exact hc
      · split at h
        · cases h
        · rename_i rv event q hpull
          simp only [Option.some.injEq] at h
          subst h
          have := apply_keeps_closed s.communicator (.pull_one t.my_event) hc
          simpa [ConcurrentQueue.apply, hpull] using this

/-- C17: the closed flag is one-way.  No call of `push`, `pull_one` or `close_queue`
turns it from true to false, so it stays true after every sequence of calls, and after
every sequence of actions of the threads of the program. -/
theorem closed_flag_is_one_way (q : ConcurrentQueue) (hq : q.m_is_closed_ = true) :
    (∀ op : QueueOp, (q.apply op).m_is_closed_ = true)
      ∧ (∀ ops : List QueueOp, (ops.foldl ConcurrentQueue.apply q).m_is_closed_ = true)
      ∧ ∀ (s s' : System) (schedule : List ThreadId), s.communicator = q →
          s.exec schedule = some s' → s'.communicator.m_is_closed_ = true := by
  refine ⟨fun op => apply_keeps_closed q op hq, ?_, ?_⟩
  · intro ops
    induction ops generalizing q with
    | nil => exact hq
    | cons op ops ih => exact ih (q.apply op) (apply_keeps_closed q op hq)
  · intro s s' schedule hs hexec
    subst hs
    induction schedule generalizing s with
    | nil =>
      simp only [System.exec, Option.some.injEq] at hexec
      exact hexec ▸ hq
    | cons t ts ih =>
      simp only [System.exec] at hexec
      cases hstep : s.step t with
      | none => simp [hstep] at hexec
      | some s1 =>
        rw [hstep] at hexec
        exact ih s1 hexec (step_keeps_closed t hstep hq)

theorem closed_flag_is_one_way_witness :
    ([QueueOp.push ⟨['a'], [], []⟩, .pull_one ⟨[], [], []⟩, .pull_one ⟨[], [], []⟩,
        .close_queue, .push ⟨['b'], [], []⟩].foldl ConcurrentQueue.apply
        (ConcurrentQueue.mk true [])).m_is_closed_ = true :=
  (closed_flag_is_one_way (ConcurrentQueue.mk true []) rfl).2.1 _

/-- C19: a push on a closed container leaves the flag true and the records already held
in place, appends exactly the pushed record, and the next `pull_one` returns that record
and leaves the container as it was before the push. -/
theorem push_after_close (q : ConcurrentQueue) (r : BrowsingEvent)
    (hq : q.m_is_closed_ = true) :
    (q.push r).m_is_closed_ = true
      ∧ (q.push r).m_events_ = q.m_events_ ++ [r]
      ∧ ∀ event : BrowsingEvent, (q.push r).pull_one event = .returned true r q := by
  obtain ⟨c, l⟩ := q
  refine ⟨hq, rfl, ?_⟩
  intro event
  exact pull_one_of_ne_nil c l r event

theorem push_after_close_witness :
    ((ConcurrentQueue.mk true [⟨['a'], [], []⟩]).push ⟨['b'], [], []⟩).pull_one ⟨[], [], []⟩
      = .returned true ⟨['b'], [], []⟩ (ConcurrentQueue.mk true [⟨['a'], [], []⟩]) :=
  (push_after_close (ConcurrentQueue.mk true [⟨['a'], [], []⟩]) ⟨['b'], [], []⟩ rfl).2.2 _

/-! ### The search for the offending words -/

theorem matches_at_iff_starts (hay needle : List Char) :
    Consumer.matches_at (fun a b => a.toLower == b.toLower) hay needle = true
      ↔ needle.map Char.toLower <+: hay.map Char.toLower := by
  induction needle generalizing hay with
  | nil =>
    cases hay <;> simp [Consumer.matches_at]
  | cons n ns ih =>
    cases hay with
    | nil => simp [Consumer.matches_at]
    | cons h hs =>
      simp only [Consumer.matches_at, Bool.and_eq_true, beq_iff_eq, ih, List.map_cons,
        List.cons_prefix_cons]
      constructor
      · rintro ⟨h1, h2⟩
        exact ⟨h1.symm, h2⟩
      · rintro ⟨h1, h2⟩
        exact ⟨h1.symm, h2⟩

theorem search_ne_length_iff (hay needle : List Char) (hne : needle ≠ []) :
    Consumer.search (fun a b => a.toLower == b.toLower) hay needle ≠ hay.length
      ↔ needle.map Char.toLower <:+: hay.map Char.toLower := by
  induction hay with
  | nil =>
    simp [Consumer.search, hne]
  | cons h hs ih =>
    simp only [Consumer.search, List.map_cons, List.infix_cons_iff, ← ih, List.length_cons]
    by_cases hm : Consumer.matches_at (fun a b => a.toLower == b.toLower) (h :: hs) needle
        = true
    · have hp := (matches_at_iff_starts (h :: hs) needle).mp hm
      simp only [List.map_cons] at hp
      simp [hm, hp]
    · have hp : ¬ needle.map Char.toLower <+: h.toLower :: hs.map Char.toLower := by
        intro hp
        exact hm ((matches_at_iff_starts (h :: hs) needle).mpr (by simpa using hp))
      simp [hm, hp]

theorem occurs_folded_iff_inside (word text : List Char) :
    occurs_folded word text ↔ word.map Char.toLower <:+: text.map Char.toLower := by
  constructor
  · rintro ⟨before, after, h⟩
    exact ⟨before, after, h.symm⟩
  · rintro ⟨before, after, h⟩
    exact ⟨before, after, h.symm⟩

/-- C11: a record is questionable exactly when one of the four terms `porn`, `xxx`,
`sex`, `Bieber` occurs in the domain of its url field as a run of adjacent characters,
the ASCII letters of the domain and of the term folded to lower case; the domains
`JustinBIEBER.com` and `bieber.org` are matched. -/
theorem is_questionable_iff_blocklisted (event : BrowsingEvent) :
    (Consumer.is_questionable event = true
        ↔ ∃ word ∈ ["porn".toList, "xxx".toList, "sex".toList, "Bieber".toList],
            occurs_folded word (Consumer.get_domain event.m_url))
      ∧ Consumer.is_questionable ⟨[], "url: http://JustinBIEBER.com".toList, []⟩ = true
      ∧ Consumer.is_questionable ⟨[], "url: http://bieber.org/x".toList, []⟩ = true := by
  refine ⟨?_, by decide, by decide⟩
  simp only [Consumer.is_questionable, List.any_eq_true, bne_iff_ne, ne_eq]
  constructor
  · rintro ⟨word, hw, hs⟩
    refine ⟨word, hw, (occurs_folded_iff_inside _ _).mpr ?_⟩
    refine (search_ne_length_iff _ word ?_).mp hs
    rintro rfl
    revert hw
    decide
  · rintro ⟨word, hw, ho⟩
    refine ⟨word, hw, ?_⟩
    refine (search_ne_length_iff _ word ?_).mpr ((occurs_folded_iff_inside _ _).mp ho)
    rintro rfl
    revert hw
    decide

/-! ### Domain extraction -/

theorem get_domain_eq (url_input : List Char) :
    Consumer.get_domain url_input
      = match regex_match
          (match regex_match url_input Consumer.general_split_pattern with
            | some m => sub_match m 1
            | none => [])
          Consumer.authority_split_pattern with
        | some m => sub_match m 2
        | none => [] := by
  have h1 : Consumer.general_split_pattern.mark_count + 1 ≥ 2 := by decide
  have h2 : Consumer.authority_split_pattern.mark_count + 1 ≥ 3 := by decide
  simp only [Consumer.get_domain, h1, h2, if_true]

theorem authority_nil_no_match :
    regex_match [] Consumer.authority_split_pattern = none := by
  decide

theorem is_questionable_of_domain_nil (event : BrowsingEvent)
    (h : Consumer.get_domain event.m_url = []) : Consumer.is_questionable event = false := by
  simp only [Consumer.is_questionable, h]
  decide

/-- C18: when the url field does not match the first pattern, or the authority taken
from it does not match the second, `get_domain` returns the empty string; and a record
whose domain is the empty string is not questionable.  Both are plain return values:
there is no error outcome. -/
theorem failed_extraction_is_no_match :
    (∀ url_input : List Char,
        regex_match url_input Consumer.general_split_pattern = none →
        Consumer.get_domain url_input = [])
      ∧ (∀ (url_input : List Char) (m : Caps),
          regex_match url_input Consumer.general_split_pattern = some m →
          regex_match (sub_match m 1) Consumer.authority_split_pattern = none →
          Consumer.get_domain url_input = [])
      ∧ ∀ event : BrowsingEvent, Consumer.get_domain event.m_url = [] →
          Consumer.is_questionable event = false := by
  refine ⟨?_, ?_, is_questionable_of_domain_nil⟩
  · intro url_input h
    rw [get_domain_eq, h]
    simp only [authority_nil_no_match]
  · intro url_input m h1 h2
    rw [get_domain_eq, h1]
    simp only [h2]

theorem failed_extraction_is_no_match_witness :
    Consumer.get_domain "http://xxx.com".toList = []
      ∧ Consumer.get_domain bad_port_url = []
      ∧ Consumer.is_questionable ⟨sample_device, bad_port_url, sample_timestamp⟩ = false :=
  ⟨failed_extraction_is_no_match.1 "http://xxx.com".toList (by decide),
    failed_extraction_is_no_match.2.1 bad_port_url
      [(2, "/".toList), (3, []), (1, "xxx.com:abc".toList)] (by decide) (by decide),
    failed_extraction_is_no_match.2.2 ⟨sample_device, bad_port_url, sample_timestamp⟩
      (by decide)⟩

/-! ### The captures of a match -/

theorem Rx.starRun_caps (step : List Char → Caps → List (List Char × Caps))
    (hstep : ∀ s c rest c', (rest, c') ∈ step s c → c' = c)
    (n : Nat) (s : List Char) (c : Caps) (rest : List Char) (c' : Caps)
    (h : (rest, c') ∈ Rx.starRun step n s c) : c' = c := by
  induction n generalizing s c with
  | zero =>
    simp only [Rx.starRun, List.mem_singleton, Prod.mk.injEq] at h
    exact h.2
  | succ n ih =>
    simp only [Rx.starRun, List.mem_append, List.mem_flatMap, List.mem_filter,
      List.mem_singleton, Prod.mk.injEq] at h
    rcases h with ⟨⟨s1, c1⟩, ⟨hmem, _⟩, hrest⟩ | h
    · have h1 := hstep _ _ _ _ hmem
      have h2 := ih _ _ hrest
      simp only at h2
      rw [h2, h1]
    · exact h.2

/-- A pattern without capture groups leaves the captures as they are. -/
theorem Rx.run_caps (r : Rx) (hr : r.mark_count = 0) (s : List Char) (c : Caps)
    (rest : List Char) (c' : Caps) (h : (rest, c') ∈ r.run s c) : c' = c := by
  induction r generalizing s c rest c' with
  | eps =>
    simp only [Rx.run, List.mem_singleton, Prod.mk.injEq] at h
    exact h.2
  | cls p =>
    cases s with
    | nil => simp [Rx.run] at h
    | cons x xs =>
      simp only [Rx.run] at h
      split at h
      · simp only [List.mem_singleton, Prod.mk.injEq] at h
        exact h.2
      · simp at h
  | seq a b iha ihb =>
    simp only [Rx.mark_count, Nat.add_eq_zero] at hr
    simp only [Rx.run, List.mem_flatMap] at h
    obtain ⟨⟨s1, c1⟩, h1, h2⟩ := h
    have e1 := iha hr.1 _ _ _ _ h1
    have e2 := ihb hr.2 _ _ _ _ h2
    simp only at e2
    rw [e2, e1]
  | alt a b iha ihb =>
    simp only [Rx.mark_count, Nat.add_eq_zero] at hr
    simp only [Rx.run, List.mem_append] at h
    rcases h with h | h
    · exact iha hr.1 _ _ _ _ h
    · exact ihb hr.2 _ _ _ _ h
  | star a iha =>
    simp only [Rx.mark_count] at hr
    simp only [Rx.run] at h
    exact Rx.starRun_caps (Rx.run a) (iha hr) _ _ _ _ _ h
  | group i a _ =>
    simp [Rx.mark_count] at hr

theorem Rx.mem_run_plain (r : Rx) (hr : r.mark_count = 0) (s : List Char) (c : Caps)
    (rest : List Char) (c' : Caps) :
    (rest, c') ∈ r.run s c ↔ c' = c ∧ ∃ w, r.lang w ∧ s = w ++ rest := by
  constructor
  · intro h
    exact ⟨Rx.run_caps r hr s c rest c' h, Rx.run_sound r s c rest c' h⟩
  · rintro ⟨rfl, w, hw, rfl⟩
    obtain ⟨c1, h1⟩ := Rx.run_complete r w hw rest c'
    rw [Rx.run_caps r hr _ _ _ _ h1] at h1
    exact h1

theorem Rx.mem_run_seq (a b : Rx) (s : List Char) (c : Caps) (rest : List Char)
    (c' : Caps) :
    (rest, c') ∈ (Rx.seq a b).run s c
      ↔ ∃ mid c1, (mid, c1) ∈ a.run s c ∧ (rest, c') ∈ b.run mid c1 := by
  simp only [Rx.run, List.mem_flatMap, Prod.exists]

theorem Rx.mem_run_cat_cons (a : Rx) (as : List Rx) (s : List Char) (c : Caps)
    (rest : List Char) (c' : Caps) :
    (rest, c') ∈ (Rx.cat (a :: as)).run s c
      ↔ ∃ mid c1, (mid, c1) ∈ a.run s c ∧ (rest, c') ∈ (Rx.cat as).run mid c1 :=
  Rx.mem_run_seq a (Rx.cat as) s c rest c'

theorem Rx.mem_run_cat_nil (s : List Char) (c : Caps) (rest : List Char) (c' : Caps) :
    (rest, c') ∈ (Rx.cat []).run s c ↔ rest = s ∧ c' = c := by
  simp [Rx.cat, Rx.run]

theorem Rx.mem_run_opt (a : Rx) (s : List Char) (c : Caps) (rest : List Char) (c' : Caps) :
    (rest, c') ∈ (Rx.opt a).run s c ↔ (rest, c') ∈ a.run s c ∨ (rest = s ∧ c' = c) := by
  simp [Rx.opt, Rx.run]

theorem Rx.mem_run_group (i : Nat) (a : Rx) (s : List Char) (c : Caps) (rest : List Char)
    (c' : Caps) :
    (rest, c') ∈ (Rx.group i a).run s c
      ↔ ∃ c1, (rest, c1) ∈ a.run s c ∧ c' = (i, s.take (s.length - rest.length)) :: c1 := by
  simp only [Rx.run, List.mem_map, Prod.mk.injEq, Prod.exists]
  constructor
  · rintro ⟨s1, c1, h, rfl, rfl⟩
    exact ⟨c1, h, rfl⟩
  · rintro ⟨c1, h, rfl⟩
    exact ⟨rest, c1, h, rfl, rfl⟩

theorem Rx.mark_count_str (l : List Char) : (Rx.str l).mark_count = 0 := by
  induction l with
  | nil => rfl
  | cons x xs ih => simp [Rx.str, Rx.mark_count, Rx.chr, ih]

theorem Rx.mem_run_str (l s : List Char) (c : Caps) (rest : List Char) (c' : Caps) :
    (rest, c') ∈ (Rx.str l).run s c ↔ c' = c ∧ s = l ++ rest := by
  rw [Rx.mem_run_plain _ (Rx.mark_count_str l)]
  simp only [Rx.lang_str]
  constructor
  · rintro ⟨h, w, rfl, hs⟩
    exact ⟨h, hs⟩
  · rintro ⟨h, hs⟩
    exact ⟨h, l, rfl, hs⟩

theorem Rx.mem_run_chr (x : Char) (s : List Char) (c : Caps) (rest : List Char)
    (c' : Caps) :
    (rest, c') ∈ (Rx.chr x).run s c ↔ c' = c ∧ s = x :: rest := by
  rw [Rx.mem_run_plain (Rx.chr x) rfl]
  simp only [Rx.lang_chr]
  constructor
  · rintro ⟨h, w, rfl, hs⟩
    exact ⟨h, hs⟩
  · rintro ⟨h, hs⟩
    exact ⟨h, [x], rfl, hs⟩

theorem Rx.mem_run_plus_cls (p : Char → Bool) (s : List Char) (c : Caps) (rest : List Char)
    (c' : Caps) :
    (rest, c') ∈ (Rx.plus (Rx.cls p)).run s c
      ↔ c' = c ∧ ∃ w, (w ≠ [] ∧ ∀ x ∈ w, p x = true) ∧ s = w ++ rest := by
  rw [Rx.mem_run_plain (Rx.plus (Rx.cls p)) rfl]
  simp only [Rx.lang_plus_cls]

theorem Rx.mem_run_star_cls (p : Char → Bool) (s : List Char) (c : Caps) (rest : List Char)
    (c' : Caps) :
    (rest, c') ∈ (Rx.star (Rx.cls p)).run s c
      ↔ c' = c ∧ ∃ w, (∀ x ∈ w, p x = true) ∧ s = w ++ rest := by
  rw [Rx.mem_run_plain (Rx.star (Rx.cls p)) rfl]
  simp only [Rx.lang_star_cls]

/-- Cutting a text at the first occurrence of a character can be done in one way only. -/
theorem split_at_first (x : Char) (a b r r' : List Char) (ha : x ∉ a) (hb : x ∉ b)
    (h : a ++ x :: r = b ++ x :: r') : a = b ∧ r = r' := by
  induction a generalizing b with
  | nil =>
    cases b with
    | nil => simpa using h
    | cons y b =>
      simp only [List.nil_append, List.cons_append, List.cons.injEq] at h
      exact absurd (List.mem_cons_self _ _) (h.1 ▸ hb)
  | cons y a ih =>
    cases b with
    | nil =>
      simp only [List.nil_append, List.cons_append, List.cons.injEq] at h
      exact absurd (List.mem_cons_self _ _) (h.1 ▸ ha)
    | cons z b =>
      simp only [List.cons_append, List.cons.injEq] at h
      obtain ⟨e1, e2⟩ := ih b (fun hm => ha (List.mem_cons_of_mem _ hm))
        (fun hm => hb (List.mem_cons_of_mem _ hm)) h.2
      exact ⟨by rw [h.1, e1], e2⟩

theorem take_append_sub (w rest : List Char) :
    (w ++ rest).take ((w ++ rest).length - rest.length) = w := by
  simp

theorem regex_match_first (s : List Char) (pattern : Rx) (P : Caps → Prop)
    (hex : pattern.lang s) (hall : ∀ c', ([], c') ∈ pattern.run s [] → P c') :
    ∃ m, regex_match s pattern = some m ∧ P m := by
  have hsome := (regex_match_isSome s pattern).mpr hex
  obtain ⟨m, hm⟩ := Option.isSome_iff_exists.mp hsome
  refine ⟨m, hm, ?_⟩
  simp only [regex_match, Option.map_eq_some'] at hm
  obtain ⟨⟨rest, c'⟩, hfind, rfl⟩ := hm
  have hmem := List.mem_of_find?_eq_some hfind
  have hp := List.find?_some hfind
  simp only [List.isEmpty_iff] at hp
  subst hp
  exact hall _ hmem

/-- The first stage of `get_domain` on a url field with scheme, authority and optional
path: the first capture group is the authority. -/
theorem general_stage (scheme authority tail : List Char) (hs : scheme ≠ [])
    (hsc : ':' ∉ scheme) (ha : authority ≠ []) (hac : '/' ∉ authority)
    (ht : is_path_part tail) :
    ∃ m, regex_match ("url: ".toList ++ scheme ++ "://".toList ++ authority ++ tail)
        Consumer.general_split_pattern = some m ∧ sub_match m 1 = authority := by
  have hsc' : ∀ c ∈ scheme, (c != ':') = true := by
    intro c hc
    simp only [bne_iff_ne, ne_eq]
    rintro rfl
    exact hsc hc
  have hac' : ∀ c ∈ authority, (c != '/') = true := by
    intro c hc
    simp only [bne_iff_ne, ne_eq]
    rintro rfl
    exact hac hc
  apply regex_match_first
  · simp only [Consumer.general_split_pattern, Rx.lang_cat_cons, Rx.lang_cat_nil,
      Rx.lang_str, Rx.notc, Rx.any, Rx.lang_plus_cls, Rx.lang_opt, Rx.lang_group,
      Rx.lang_chr, Rx.lang_star_cls]
    refine ⟨_, _, rfl, ⟨scheme, _, ⟨hs, hsc'⟩, ⟨_, _, rfl, ⟨authority, _, ⟨ha, hac'⟩,
      ⟨tail, [], ?_, rfl, rfl⟩, rfl⟩, rfl⟩, rfl⟩, by simp⟩
    rcases ht with rfl | ⟨path, hp, rfl⟩
    · exact Or.inr rfl
    · refine Or.inl ⟨_, _, rfl, ⟨path, [], ?_, rfl, rfl⟩, by simp⟩
      intro c hc
      simpa using hp c hc
  · intro c' hmem
    simp only [Consumer.general_split_pattern, Rx.mem_run_cat_cons, Rx.mem_run_cat_nil,
      Rx.mem_run_str, Rx.notc, Rx.any, Rx.mem_run_plus_cls, Rx.mem_run_opt,
      Rx.mem_run_group, Rx.mem_run_chr, Rx.mem_run_star_cls] at hmem
    obtain ⟨s1, c1, ⟨hc1, h1⟩, s2, c2, ⟨hc2, w, ⟨_, hwc⟩, hs1⟩, s3, c3, ⟨hc3, hs2⟩, s4, c4,
      ⟨c5, ⟨hc5, w2, ⟨_, hw2c⟩, hs3⟩, hc4⟩, s5, c6, hopt, hs5, hc'⟩ := hmem
    have hw : ':' ∉ w := fun hm => by simpa using hwc _ hm
    have hw2 : '/' ∉ w2 := fun hm => by simpa using hw2c _ hm
    simp only [List.append_assoc, List.append_cancel_left_eq] at h1
    rw [hs1, hs2] at h1
    have h1' : scheme ++ ':' :: ('/' :: '/' :: (authority ++ tail))
        = w ++ ':' :: ('/' :: '/' :: s3) := by simpa using h1
    obtain ⟨_, h3⟩ := split_at_first ':' scheme w _ _ hsc hw h1'
    simp only [List.cons.injEq, true_and] at h3
    rw [hs3] at h3
    have hcap : c4 = (1, w2) :: [] := by
      rw [hc4, hc5, hc3, hc2, hc1, hs3, take_append_sub]
    subst hs5
    rcases hopt with ⟨c7, ⟨s6, c8, ⟨hc8, hs4⟩, s7, c9, ⟨c10, ⟨hc10, _⟩, hc9⟩, _, hc7⟩, hc6⟩
      | ⟨hs4, hc6⟩
    · rw [hs4] at h3
      have hw2a : w2 = authority := by
        rcases ht with rfl | ⟨path, _, rfl⟩
        · rw [List.append_nil] at h3
          exact absurd (h3 ▸ (by simp : '/' ∈ w2 ++ '/' :: s6)) hac
        · exact ((split_at_first '/' authority w2 _ _ hac hw2 h3).1).symm
      rw [hc', hc6, hc7, hc9, hc10, hc8, hcap, hw2a]
      rfl
    · rw [← hs4] at h3
      have hw2a : w2 = authority := by
        rcases ht with rfl | ⟨path, _, rfl⟩
        · simpa using h3.symm
        · have : '/' ∈ w2 ++ [] := h3 ▸ (by simp : '/' ∈ authority ++ '/' :: path)
          rw [List.append_nil] at this
          exact absurd this hw2
      rw [hc', hc6, hcap, hw2a]
      rfl

theorem authority_run_eq (s : List Char) (c : Caps) :
    Consumer.authority_split_pattern.run s c
      = ((Consumer.userinfo_group.run s c).flatMap fun r =>
            Consumer.host_port_pattern.run r.1 r.2)
          ++ Consumer.host_port_pattern.run s c := by
  have h : Consumer.authority_split_pattern
      = Rx.seq (Rx.alt Consumer.userinfo_group Rx.eps) Consumer.host_port_pattern := rfl
  rw [h]
  simp only [Rx.run, List.flatMap_append, List.flatMap_cons, List.flatMap_nil,
    List.append_nil]

theorem find_first_append (A B : List (List Char × Caps)) (P : Caps → Prop)
    (hA : ∀ x ∈ A, x.1 = [] → P x.2)
    (h : (∃ x ∈ A, x.1 = []) ∨ ((∀ x ∈ B, x.1 = [] → P x.2) ∧ ∃ x ∈ B, x.1 = [])) :
    ∃ m, (((A ++ B).find? fun r => r.1.isEmpty).map fun r => r.2) = some m ∧ P m := by
  have key : ∀ x ∈ A ++ B, x.1 = [] →
      ∃ y, (A ++ B).find? (fun r => r.1.isEmpty) = some y := by
    intro x hx hx1
    have : ((A ++ B).find? fun r => r.1.isEmpty).isSome = true := by
      rw [List.find?_isSome]
      exact ⟨x, hx, by simp [hx1]⟩
    exact Option.isSome_iff_exists.mp this
  rcases h with ⟨x, hx, hx1⟩ | ⟨hB, x, hx, hx1⟩
  · have hsome : (A.find? fun r => r.1.isEmpty).isSome = true := by
      rw [List.find?_isSome]
      exact ⟨x, hx, by simp [hx1]⟩
    obtain ⟨y, hy⟩ := Option.isSome_iff_exists.mp hsome
    refine ⟨y.2, by simp [List.find?_append, hy], ?_⟩
    have hp := List.find?_some hy
    simp only [List.isEmpty_iff] at hp
    exact hA y (List.mem_of_find?_eq_some hy) hp
  · obtain ⟨y, hy⟩ := key x (List.mem_append_right _ hx) hx1
    refine ⟨y.2, by simp [hy], ?_⟩
    have hp := List.find?_some hy
    simp only [List.isEmpty_iff] at hp
    rcases List.mem_append.mp (List.mem_of_find?_eq_some hy) with hm | hm
    · exact hA y hm hp
    · exact hB y hm hp

theorem not_colon_of_isDigit (c : Char) (h : c.isDigit = true) : c ≠ ':' := by
  rintro rfl
  revert h
  decide

theorem not_at_of_isDigit (c : Char) (h : c.isDigit = true) : c ≠ '@' := by
  rintro rfl
  revert h
  decide

theorem host_port_lang (host port : List Char) (hh : host ≠ []) (hhc : ':' ∉ host)
    (hp : is_port_part port) : Consumer.host_port_pattern.lang (host ++ port) := by
  simp only [Consumer.host_port_pattern, Rx.lang_cat_cons, Rx.lang_cat_nil, Rx.notc,
    Rx.digit, Rx.lang_plus_cls, Rx.lang_opt, Rx.lang_group, Rx.lang_chr]
  refine ⟨host, port, ⟨hh, ?_⟩, ⟨port, [], ?_, rfl, by simp⟩, rfl⟩
  · intro c hc
    simp only [bne_iff_ne, ne_eq]
    rintro rfl
    exact hhc hc
  · rcases hp with rfl | ⟨digits, hd, hdc, rfl⟩
    · exact Or.inr rfl
    · exact Or.inl ⟨_, _, rfl, ⟨digits, [], ⟨hd, hdc⟩, rfl, rfl⟩, by simp⟩

/-- Every match of the whole of `host` and an optional port by the second and third
groups of `authority_split_pattern` captures `host` in group 2. -/
theorem host_port_capture (host port : List Char) (hhc : ':' ∉ host)
    (hp : is_port_part port) (c c' : Caps)
    (hmem : ([], c') ∈ Consumer.host_port_pattern.run (host ++ port) c) :
    sub_match c' 2 = host := by
  simp only [Consumer.host_port_pattern, Rx.mem_run_cat_cons, Rx.mem_run_cat_nil, Rx.notc,
    Rx.digit, Rx.mem_run_plus_cls, Rx.mem_run_opt, Rx.mem_run_group, Rx.mem_run_chr] at hmem
  obtain ⟨s1, c1, ⟨c2, ⟨hc2, w, ⟨_, hwc⟩, hs⟩, hc1⟩, s2, c3, hopt, hs2, hc'⟩ := hmem
  have hw : ':' ∉ w := fun hm => by simpa using hwc _ hm
  have hcap : c1 = (2, w) :: c := by
    rw [hc1, hc2, hs, take_append_sub]
  subst hs2
  rcases hopt with ⟨c4, ⟨s3, c5, ⟨hc5, hs1⟩, s4, c6, ⟨hc6, _⟩, _, hc4a⟩, hc3⟩ | ⟨hs1, hc3⟩
  · rw [hs1] at hs
    have hwh : w = host := by
      rcases hp with rfl | ⟨digits, _, _, rfl⟩
      · rw [List.append_nil] at hs
        exact absurd (hs ▸ (by simp : ':' ∈ w ++ ':' :: s3)) hhc
      · exact ((split_at_first ':' host w _ _ hhc hw hs).1).symm
    rw [hc', hc3, hc4a, hc6, hc5, hcap, hwh]
    rfl
  · rw [← hs1] at hs
    have hwh : w = host := by
      rcases hp with rfl | ⟨digits, _, _, rfl⟩
      · simpa using hs.symm
      · have : ':' ∈ w ++ [] := hs ▸ (by simp : ':' ∈ host ++ ':' :: digits)
        rw [List.append_nil] at this
        exact absurd this hw
    rw [hc', hc3, hcap, hwh]
    rfl

/-- The second stage of `get_domain` on an authority made of an optional userinfo, a
host and an optional port: the second capture group is the host. -/
theorem authority_stage (ui host port : List Char) (hui : is_userinfo_part ui)
    (hh : host ≠ []) (hhc : ':' ∉ host) (hha : '@' ∉ host) (hp : is_port_part port) :
    ∃ m, regex_match (ui ++ host ++ port) Consumer.authority_split_pattern = some m
      ∧ sub_match m 2 = host := by
  have hnoat : '@' ∉ host ++ port := by
    simp only [List.mem_append, not_or]
    refine ⟨hha, ?_⟩
    rcases hp with rfl | ⟨digits, _, hdc, rfl⟩
    · simp
    · simp only [List.mem_cons, not_or]
      exact ⟨by decide, fun hm => not_at_of_isDigit _ (hdc _ hm) rfl⟩
  have hlang := host_port_lang host port hh hhc hp
  simp only [regex_match, authority_run_eq]
  apply find_first_append
  · rintro ⟨rest, c'⟩ hx hx1
    simp only at hx1
    subst hx1
    simp only [List.mem_flatMap, Prod.exists] at hx
    obtain ⟨mid, c1, hg, hxr⟩ := hx
    simp only [Consumer.userinfo_group, Rx.mem_run_group, Rx.mem_run_cat_cons,
      Rx.mem_run_cat_nil, Rx.mem_run_plus_cls, Rx.mem_run_chr, Rx.notc] at hg
    obtain ⟨c2, ⟨s1, c3, ⟨_, w, ⟨_, hwc⟩, hs⟩, s2, c4, ⟨_, hs1⟩, hmid, _⟩, _⟩ := hg
    have hw : '@' ∉ w := fun hm => by simpa using hwc _ hm
    rw [hs1, ← hmid] at hs
    rcases hui with rfl | ⟨userinfo, _, huc, _, rfl⟩
    · exfalso
      apply hnoat
      have : '@' ∈ w ++ '@' :: mid := by simp
      rw [← hs] at this
      simpa using this
    · have hs' : userinfo ++ '@' :: (host ++ port) = w ++ '@' :: mid := by simpa using hs
      obtain ⟨_, hm⟩ := split_at_first '@' userinfo w _ _ huc hw hs'
      rw [← hm] at hxr
      exact host_port_capture host port hhc hp c1 c' hxr
  · rcases hui with rfl | ⟨userinfo, hu, huc, _, rfl⟩
    · right
      simp only [List.nil_append]
      refine ⟨?_, ?_⟩
      · rintro ⟨rest, c'⟩ hx hx1
        simp only at hx1
        subst hx1
        exact host_port_capture host port hhc hp [] c' hx
      · obtain ⟨c', hc'⟩ := Rx.run_complete _ _ hlang [] []
        exact ⟨([], c'), by simpa using hc', rfl⟩
    · left
      have hg : Consumer.userinfo_group.lang (userinfo ++ ['@']) := by
        simp only [Consumer.userinfo_group, Rx.lang_group, Rx.lang_cat_cons,
          Rx.lang_cat_nil, Rx.notc, Rx.lang_plus_cls, Rx.lang_chr]
        refine ⟨userinfo, ['@'], ⟨hu, ?_⟩, ⟨['@'], [], rfl, rfl, rfl⟩, rfl⟩
        intro c hc
        simp only [bne_iff_ne, ne_eq]
        rintro rfl
        exact huc hc
      obtain ⟨c1, hc1⟩ := Rx.run_complete _ _ hg (host ++ port) []
      obtain ⟨c', hc'⟩ := Rx.run_complete _ _ hlang [] c1
      refine ⟨([], c'), ?_, rfl⟩
      simp only [List.mem_flatMap, Prod.exists]
      exact ⟨host ++ port, c1, by simpa using hc1, by simpa using hc'⟩

/-! ### The counter -/

theorem sum_tally_set (l : List ConsumerThread) (i : Nat) (t t' : ConsumerThread)
    (h : l[i]? = some t) :
    ((l.set i t').map fun t => t.tally).sum + t.tally
      = (l.map fun t => t.tally).sum + t'.tally := by
  induction l generalizing i with
  | nil => simp at h
  | cons a l ih =>
    cases i with
    | zero =>
      simp only [List.getElem?_cons_zero, Option.some.injEq] at h
      subst h
      simp only [List.set_cons_zero, List.map_cons, List.sum_cons]
      omega
    | succ i =>
      simp only [List.getElem?_cons_succ] at h
      have := ih i h
      simp only [List.set_cons_succ, List.map_cons, List.sum_cons]
      omega

theorem succ_mod_mod (a m : Nat) : (a % m + 1) % m = (a + 1) % m := by
  simp [Nat.add_mod]

theorem storage_after_classify (st : Storage) (T T' : Nat) (b : Bool)
    (hc : st.m_count_ = T % 2 ^ 64) (hT : T' = T + (if b = true then 1 else 0)) :
    (if b = true then st.increase_count else st).m_count_ = T' % 2 ^ 64 := by
  subst hT
  cases b with
  | false => simpa using hc
  | true =>
    simp only [if_true, Storage.increase_count, hc]
    exact succ_mod_mod T (2 ^ 64)

theorem tally_of_not_classifying (event : BrowsingEvent) (pc : ConsumerPc)
    (pulled : List BrowsingEvent) (hpc : pc ≠ .classifying) :
    (ConsumerThread.mk event pc pulled).tally
      = (pulled.filter Consumer.is_questionable).length := by
  simp only [ConsumerThread.tally, ConsumerThread.classified, hpc, if_false]

theorem tally_of_classifying (event last : BrowsingEvent) (l : List BrowsingEvent) :
    (ConsumerThread.mk event .classifying (l ++ [last])).tally
      = (l.filter Consumer.is_questionable).length := by
  simp only [ConsumerThread.tally, ConsumerThread.classified, if_true,
    List.dropLast_concat]

theorem filter_concat_length (l : List BrowsingEvent) (e : BrowsingEvent) :
    ((l ++ [e]).filter Consumer.is_questionable).length
      = (l.filter Consumer.is_questionable).length
        + (if Consumer.is_questionable e = true then 1 else 0) := by
  rw [List.filter_append, List.length_append]
  cases hq : Consumer.is_questionable e with
  | false => simp [List.filter_cons, hq]
  | true => simp [List.filter_cons, hq]

theorem System.Counted.classify_step (s : System) (i : Nat) (t : ConsumerThread)
    (inv : s.Counted) (ht : s.consumers[i]? = some t) (hpc : t.pc = .classifying) :
    System.Counted
      { s with
        storage :=
          if Consumer.is_questionable t.my_event then s.storage.increase_count
          else s.storage
        consumers := s.consumers.set i { t with pc := .pulling } } := by
  obtain ⟨hcount, hhold⟩ := inv
  obtain ⟨l, hl⟩ := hhold t (List.getElem?_mem ht) hpc
  obtain ⟨ev, pc, pulled⟩ := t
  simp only at hpc hl
  subst hpc hl
  have hs := sum_tally_set s.consumers i ⟨ev, .classifying, l ++ [ev]⟩
    ⟨ev, .pulling, l ++ [ev]⟩ ht
  rw [tally_of_classifying, tally_of_not_classifying _ _ _ (by decide),
    filter_concat_length] at hs
  have hT : (List.map (fun t => t.tally)
        (s.consumers.set i ⟨ev, .pulling, l ++ [ev]⟩)).sum
      = s.tally + (if Consumer.is_questionable ev = true then 1 else 0) := by
    simp only [System.tally]
    clear hcount hhold ht
    omega
  refine ⟨?_, ?_⟩
  · exact storage_after_classify s.storage s.tally _ (Consumer.is_questionable ev) hcount hT
  · intro t' ht' hpc'
    rcases List.mem_or_eq_of_mem_set ht' with hm | heq
    · exact hhold t' hm hpc'
    · rw [heq] at hpc'
      cases hpc'

theorem System.Counted.pull_step (s : System) (i : Nat) (t : ConsumerThread) (rv : Bool)
    (event : BrowsingEvent) (q : ConcurrentQueue) (inv : s.Counted)
    (ht : s.consumers[i]? = some t) (hpc : t.pc = .pulling) :
    System.Counted
      { s with
        communicator := q
        consumers := s.consumers.set i
          { my_event := event
            pc := if rv then .classifying else .finished
            pulled := if rv then t.pulled ++ [event] else t.pulled } } := by
  obtain ⟨hcount, hhold⟩ := inv
  obtain ⟨ev, pc, pulled⟩ := t
  simp only at hpc
  subst hpc
  cases rv with
  | false =>
    have hs := sum_tally_set s.consumers i ⟨ev, .pulling, pulled⟩
      ⟨event, .finished, pulled⟩ ht
    rw [tally_of_not_classifying _ _ _ (by decide),
      tally_of_not_classifying _ _ _ (by decide)] at hs
    refine ⟨?_, ?_⟩
    · simp only [System.tally, Bool.false_eq_true, if_false] at hcount hs ⊢
      rw [hcount]
      have : (List.map (fun t => t.tally) (s.consumers.set i ⟨event, .finished, pulled⟩)).sum
          = (List.map (fun t => t.tally) s.consumers).sum := by omega
      rw [this]
    · intro t' ht' hpc'
      simp only [Bool.false_eq_true, if_false] at ht'
      rcases List.mem_or_eq_of_mem_set ht' with hm | heq
      · exact hhold t' hm hpc'
      · rw [heq] at hpc'
        cases hpc'
  | true =>
    have hs := sum_tally_set s.consumers i ⟨ev, .pulling, pulled⟩
      ⟨event, .classifying, pulled ++ [event]⟩ ht
    rw [tally_of_not_classifying _ _ _ (by decide), tally_of_classifying] at hs
    refine ⟨?_, ?_⟩
    · simp only [System.tally, if_true] at hcount hs ⊢
      rw [hcount]
      have : (List.map (fun t => t.tally)
            (s.consumers.set i ⟨event, .classifying, pulled ++ [event]⟩)).sum
          = (List.map (fun t => t.tally) s.consumers).sum := by omega
      rw [this]
    · intro t' ht' hpc'
      simp only [if_true] at ht'
      rcases List.mem_or_eq_of_mem_set ht' with hm | heq
      · exact hhold t' hm hpc'
      · rw [heq]
        exact ⟨pulled, rfl⟩

theorem System.Counted.after_action {s s' : System} (t : ThreadId) (inv : s.Counted)
    (h : s.step t = some s') : s'.Counted := by
  cases t with
  | producer =>
    obtain ⟨hcount, hhold⟩ := inv
    simp only [System.step] at h
    split at h
    · simp only [Option.some.injEq] at h
      subst h
      exact ⟨hcount, hhold⟩
    · split at h
      · cases h
      · simp only [Option.some.injEq] at h
        subst h
        exact ⟨hcount, hhold⟩
  | consumer i =>
    simp only [System.step, List.get?_eq_getElem?] at h
    split at h
    · cases h
    · rename_i t ht
      split at h
      · cases h
      · rename_i hpc
        simp only [Option.some.injEq] at h
        subst h
        exact inv.classify_step s i t ht hpc
      · rename_i hpc
        split at h
        · cases h
        · rename_i rv event q hpull
          simp only [Option.some.injEq] at h
          subst h
          exact inv.pull_step s i t rv event q ht hpc

theorem System.Counted.after_schedule (schedule : List ThreadId) {s s' : System}
    (inv : s.Counted) (h : s.exec schedule = some s') : s'.Counted := by
  induction schedule generalizing s with
  | nil =>
    simp only [System.exec, Option.some.injEq] at h
    exact h ▸ inv
  | cons t ts ih =>
    simp only [System.exec] at h
    cases hstep : s.step t with
    | none => simp [hstep] at h
    | some s1 =>
      rw [hstep] at h
      exact ih (inv.after_action t hstep) h

theorem System.Counted.at_start (records : List BrowsingEvent) (n : Nat) :
    (System.init records n).Counted where
  count := by
    have : (System.init records n).tally = 0 := by
      simp only [System.tally, System.init]
      induction n with
      | zero => rfl
      | succ n ih =>
        simp only [List.replicate_succ, List.map_cons, List.sum_cons, ih]
        rfl
    rw [this]
    rfl
  holding := by
    intro t ht hpc
    simp only [System.init, List.mem_replicate] at ht
    rw [ht.2] at hpc
    cases hpc

theorem tally_of_all_finished (l : List ConsumerThread)
    (h : ∀ t ∈ l, t.pc = .finished) :
    (l.map fun t => t.tally).sum
      = ((l.map fun t => t.pulled).flatten.filter Consumer.is_questionable).length := by
  induction l with
  | nil => rfl
  | cons a l ih =>
    have ha : a.tally = (a.pulled.filter Consumer.is_questionable).length := by
      obtain ⟨ev, pc, pulled⟩ := a
      have hpc : pc = .finished := h _ (List.mem_cons_self _ _)
      subst hpc
      exact tally_of_not_classifying _ _ _ (by decide)
    simp only [List.map_cons, List.sum_cons, List.flatten_cons, List.filter_append,
      List.length_append, ha, ih fun t ht => h t (List.mem_cons_of_mem _ ht)]

theorem System.Inv.retrieved_all {records : List BrowsingEvent} {n : Nat} {s : System}
    (inv : System.Inv records n s) (hn : 1 ≤ n) (hall : s.all_done = true) :
    records.Perm s.retrieved := by
  obtain ⟨pushed, hrec, hperm⟩ := inv.pushed
  simp only [System.all_done, Bool.and_eq_true, List.all_eq_true, beq_iff_eq] at hall
  obtain ⟨hdone, hfin⟩ := hall
  have hne : s.consumers ≠ [] := by
    intro hnil
    have := inv.length
    rw [hnil] at this
    simp only [List.length_nil] at this
    omega
  obtain ⟨t, l, hcons⟩ := List.exists_cons_of_ne_nil hne
  have ht : t ∈ s.consumers := by simp [hcons]
  have hempty := (inv.finished_empty t ht (hfin t ht)).2
  rw [inv.done_pending hdone, List.append_nil] at hrec
  rw [hempty, List.append_nil] at hperm
  subst hrec
  exact hperm

theorem published_some (input : List Char) : ∃ rs, published input = some rs := by
  obtain ⟨r, hr⟩ := (Producer.run_loop_fuel (input.length + 2) (input.length + 2)
    ⟨IStream.fresh input, ConcurrentQueue.init⟩ ⟨[], [], []⟩ (fresh_wf input)
    (by simp [IStream.steps, IStream.fresh]) (by simp [IStream.steps, IStream.fresh])).2
  refine ⟨r.1.m_queue_.close_queue.m_events_, ?_⟩
  simp only [published]
  rw [Producer.output_eq input (input.length + 2) (by omega), hr]
  rfl

/-- Every complete run of the program on `input` writes the number of questionable
records among those the producer pushes, as a 64-bit unsigned number. -/
theorem main_count (input : List Char) (rs : List BrowsingEvent)
    (hpub : published input = some rs) (schedule : List ThreadId) (n : Nat)
    (hmain : Spmc.main input schedule = some n) :
    n = (rs.filter Consumer.is_questionable).length % 2 ^ 64 := by
  simp only [Spmc.main, hpub, Option.some_bind] at hmain
  cases hexec : (System.init rs 2).exec schedule with
  | none => simp [hexec] at hmain
  | some s =>
    simp only [hexec, Option.some_bind] at hmain
    cases hall : s.all_done with
    | false => simp [hall] at hmain
    | true =>
      simp only [hall, if_true, Option.some.injEq, Storage.get_count] at hmain
      have inv := (System.Inv.init rs 2).exec schedule hexec
      have cnt := (System.Counted.at_start rs 2).after_schedule schedule hexec
      have hperm := inv.retrieved_all (by decide) hall
      have hfin : ∀ t ∈ s.consumers, t.pc = .finished := by
        simp only [System.all_done, Bool.and_eq_true, List.all_eq_true, beq_iff_eq] at hall
        exact hall.2
      rw [← hmain, cnt.count, System.tally, tally_of_all_finished _ hfin]
      have := (hperm.filter Consumer.is_questionable).length_eq
      simp only [System.retrieved] at this
      rw [this]

theorem main_completes (input : List Char) :
    ∃ (schedule : List ThreadId) (n : Nat), Spmc.main input schedule = some n := by
  obtain ⟨rs, hpub⟩ := published_some input
  obtain ⟨schedule, s, hexec, hall⟩ :=
    (System.Inv.init rs 2).completes (System.init rs 2).measure le_rfl
  exact ⟨schedule, s.storage.get_count, by simp [Spmc.main, hpub, hexec, hall]⟩

/-- C14: for every input the producer pushes some list of records, every complete run of
the program, whatever the order of the actions of its threads, writes the number of those
records that are questionable, as a 64-bit unsigned number and so that very number when
it is below 2^64, and there is a complete run. -/
theorem reported_count (input : List Char) :
    ∃ rs : List BrowsingEvent, published input = some rs
      ∧ (∀ (schedule : List ThreadId) (n : Nat), Spmc.main input schedule = some n →
          n = (rs.filter Consumer.is_questionable).length % 2 ^ 64
            ∧ ((rs.filter Consumer.is_questionable).length < 2 ^ 64 →
                n = (rs.filter Consumer.is_questionable).length))
      ∧ ∃ (schedule : List ThreadId) (n : Nat), Spmc.main input schedule = some n := by
  obtain ⟨rs, hpub⟩ := published_some input
  refine ⟨rs, hpub, ?_, main_completes input⟩
  intro schedule n hmain
  have h := main_count input rs hpub schedule n hmain
  refine ⟨h, fun hlt => ?_⟩
  rw [h, Nat.mod_eq_of_lt hlt]

theorem reported_count_witness :
    (Spmc.main (unlines [sample_device, sample_url, sample_timestamp])
          [.producer, .consumer 0, .consumer 0, .producer, .consumer 0, .consumer 1] = some 1
        ∧ Spmc.main (unlines [sample_device, plain_url, sample_timestamp])
          [.producer, .consumer 1, .producer, .consumer 1, .consumer 0, .consumer 1] = some 0)
      ∧ (∀ (schedule : List ThreadId) (n : Nat),
        Spmc.main (unlines [sample_device, sample_url, sample_timestamp]) schedule = some n →
        n = 1)
      ∧ ∀ (schedule : List ThreadId) (n : Nat),
        Spmc.main (unlines [sample_device, plain_url, sample_timestamp]) schedule = some n →
        n = 0 := by
  refine ⟨⟨by decide, by decide⟩, ?_, ?_⟩
  · intro schedule n hmain
    obtain ⟨rs, hpub, hall, _⟩ :=
      reported_count (unlines [sample_device, sample_url, sample_timestamp])
    have hrs : published (unlines [sample_device, sample_url, sample_timestamp])
        = some [⟨sample_device, sample_url, sample_timestamp⟩] := by decide
    rw [hrs, Option.some.injEq] at hpub
    subst hpub
    rw [(hall schedule n hmain).1]
    decide
  · intro schedule n hmain
    obtain ⟨rs, hpub, hall, _⟩ :=
      reported_count (unlines [sample_device, plain_url, sample_timestamp])
    have hrs : published (unlines [sample_device, plain_url, sample_timestamp])
        = some [⟨sample_device, plain_url, sample_timestamp⟩] := by decide
    rw [hrs, Option.some.injEq] at hpub
    subst hpub
    rw [(hall schedule n hmain).1]
    decide

/-! ### The domain of a url field -/

theorem authority_ok (ui host port : List Char) (hui : is_userinfo_part ui)
    (hh : host ≠ []) (hhs : '/' ∉ host) (hp : is_port_part port) :
    ui ++ host ++ port ≠ [] ∧ '/' ∉ ui ++ host ++ port := by
  refine ⟨by simp [hh], ?_⟩
  simp only [List.mem_append, not_or]
  refine ⟨⟨?_, hhs⟩, ?_⟩
  · rcases hui with rfl | ⟨userinfo, _, _, hus, rfl⟩
    · simp
    · simp only [List.mem_append, List.mem_singleton, not_or]
      exact ⟨hus, by decide⟩
  · rcases hp with rfl | ⟨digits, _, hdc, rfl⟩
    · simp
    · simp only [List.mem_cons, not_or]
      exact ⟨by decide, fun hm => not_slash_of_isDigit _ (hdc _ hm) rfl⟩

/-- C12: on a url field made of `url: `, a scheme, `://`, an optional userinfo and `@`,
a host, an optional colon and digits, and an optional slash and path on the same line,
with the scheme non-empty and without a colon, the userinfo non-empty and without `@`
and slash, the host non-empty and without colon, slash and `@`, and at least one digit,
`get_domain` returns exactly the host. -/
theorem get_domain_returns_host (scheme ui host port tail : List Char)
    (hs : scheme ≠ []) (hsc : ':' ∉ scheme) (hui : is_userinfo_part ui)
    (hh : host ≠ []) (hhc : ':' ∉ host) (hhs : '/' ∉ host) (hha : '@' ∉ host)
    (hp : is_port_part port) (ht : is_path_part tail) :
    Consumer.get_domain
        ("url: ".toList ++ scheme ++ "://".toList ++ (ui ++ host ++ port) ++ tail)
      = host := by
  obtain ⟨hne, hns⟩ := authority_ok ui host port hui hh hhs hp
  obtain ⟨m, hm, hm1⟩ := general_stage scheme (ui ++ host ++ port) tail hs hsc hne hns ht
  obtain ⟨m2, hm2, hm22⟩ := authority_stage ui host port hui hh hhc hha hp
  rw [get_domain_eq, hm]
  simp only [hm1, hm2, hm22]

theorem get_domain_returns_host_witness :
    Consumer.get_domain "url: http://user:pw@Host.example:8080/a@b:c/d".toList
        = "Host.example".toList
      ∧ Consumer.get_domain "url: ftp://example.com".toList = "example.com".toList :=
  ⟨get_domain_returns_host "http".toList "user:pw@".toList "Host.example".toList
      ":8080".toList "/a@b:c/d".toList (by decide) (by decide)
      (Or.inr ⟨"user:pw".toList, by decide, by decide, by decide, rfl⟩)
      (by decide) (by decide) (by decide) (by decide)
      (Or.inr ⟨"8080".toList, by decide, by decide, rfl⟩)
      (Or.inr ⟨"a@b:c/d".toList, by decide, rfl⟩),
    get_domain_returns_host "ftp".toList [] "example.com".toList [] [] (by decide)
      (by decide) (Or.inl rfl) (by decide) (by decide) (by decide) (by decide)
      (Or.inl rfl) (Or.inl rfl)⟩

/-- C13: classification looks at the domain only.  Two url fields with the same scheme
and the same authority, each with no path or with a slash and any path on the same line,
have the same domain, and records with these url fields are both questionable or both
not, whatever their other fields; a blocklist term in the path only, as in
`url: http://example.com/xxx`, does not make a record questionable. -/
theorem classification_ignores_path (scheme authority tail1 tail2 : List Char)
    (d1 t1 d2 t2 : List Char) (hs : scheme ≠ []) (hsc : ':' ∉ scheme)
    (ha : authority ≠ []) (hac : '/' ∉ authority) (h1 : is_path_part tail1)
    (h2 : is_path_part tail2) :
    Consumer.get_domain ("url: ".toList ++ scheme ++ "://".toList ++ authority ++ tail1)
        = Consumer.get_domain ("url: ".toList ++ scheme ++ "://".toList ++ authority ++ tail2)
      ∧ Consumer.is_questionable
          ⟨d1, "url: ".toList ++ scheme ++ "://".toList ++ authority ++ tail1, t1⟩
        = Consumer.is_questionable
          ⟨d2, "url: ".toList ++ scheme ++ "://".toList ++ authority ++ tail2, t2⟩
      ∧ Consumer.is_questionable ⟨sample_device, path_term_url, sample_timestamp⟩ = false := by
  obtain ⟨m1, hm1, hc1⟩ := general_stage scheme authority tail1 hs hsc ha hac h1
  obtain ⟨m2, hm2, hc2⟩ := general_stage scheme authority tail2 hs hsc ha hac h2
  have hdom : Consumer.get_domain
        ("url: ".toList ++ scheme ++ "://".toList ++ authority ++ tail1)
      = Consumer.get_domain
        ("url: ".toList ++ scheme ++ "://".toList ++ authority ++ tail2) := by
    rw [get_domain_eq, get_domain_eq, hm1, hm2]
    simp only [hc1, hc2]
  refine ⟨hdom, ?_, by decide⟩
  simp only [Consumer.is_questionable, hdom]

theorem classification_ignores_path_witness :
    Consumer.is_questionable ⟨sample_device, sample_url, sample_timestamp⟩
        = Consumer.is_questionable
            ⟨other_device, "url: http://www.xxxsite.com".toList, sample_timestamp⟩
      ∧ Consumer.is_questionable ⟨sample_device, sample_url, sample_timestamp⟩ = true :=
  ⟨(classification_ignores_path "http".toList "www.xxxsite.com".toList "/page".toList []
      sample_device sample_timestamp other_device sample_timestamp (by decide) (by decide)
      (by decide) (by decide) (Or.inr ⟨"page".toList, by decide, rfl⟩) (Or.inl rfl)).2.1,
    by decide⟩

/-! ### Url fields that are valid and have no domain -/

theorem valid_url_of_domain (u : List Char) (h : Consumer.get_domain u ≠ []) :
    Producer.is_valid_url_ u = true := by
  cases hg : regex_match u Consumer.general_split_pattern with
  | none =>
    exfalso
    apply h
    rw [get_domain_eq, hg]
    simp only [authority_nil_no_match]
  | some m =>
    have hl := (regex_match_isSome u Consumer.general_split_pattern).mp (by simp [hg])
    rw [Producer.is_valid_url_, regex_match_isSome]
    simp only [Consumer.general_split_pattern, Producer.url_pattern, Rx.lang_cat_cons,
      Rx.lang_cat_nil, Rx.lang_str, Rx.notc, Rx.lang_plus_cls, Rx.lang_group] at hl ⊢
    obtain ⟨_, _, rfl, ⟨scheme, _, hsch, ⟨_, _, rfl, ⟨a, _, hauth,
      ⟨tl, _, htl, rfl, rfl⟩, rfl⟩, rfl⟩, rfl⟩, rfl⟩ := hl
    exact ⟨_, _, rfl, ⟨scheme, _, hsch, ⟨_, _, rfl, ⟨a, _, hauth,
      ⟨[], _, (Rx.lang_opt _ _).mpr (Or.inr rfl), ⟨tl, [], htl, rfl, rfl⟩, rfl⟩, rfl⟩,
      rfl⟩, rfl⟩, rfl⟩

/-- C20: the url check of the parser accepts every url field from which a domain can be
extracted, and more.  The line `url: http://xxx.com:abc/` passes `is_valid_url_`, its
host `xxx.com` contains the term `xxx`, yet `get_domain` returns the empty string for it
and `is_questionable` returns false; a record with this url line is pushed by the
producer and every complete run of the program on it writes 0. -/
theorem url_check_wider_than_extraction :
    (∀ u : List Char, Consumer.get_domain u ≠ [] → Producer.is_valid_url_ u = true)
      ∧ Producer.is_valid_url_ bad_port_url = true
      ∧ bad_port_url = "url: http://".toList ++ "xxx.com".toList ++ ":abc/".toList
      ∧ occurs_folded "xxx".toList "xxx.com".toList
      ∧ Consumer.get_domain bad_port_url = []
      ∧ Consumer.is_questionable ⟨sample_device, bad_port_url, sample_timestamp⟩ = false
      ∧ published (unlines [sample_device, bad_port_url, sample_timestamp])
          = some [⟨sample_device, bad_port_url, sample_timestamp⟩]
      ∧ ∀ (schedule : List ThreadId) (n : Nat),
          Spmc.main (unlines [sample_device, bad_port_url, sample_timestamp]) schedule
            = some n → n = 0 := by
  have hpub : published (unlines [sample_device, bad_port_url, sample_timestamp])
      = some [⟨sample_device, bad_port_url, sample_timestamp⟩] := by decide
  refine ⟨valid_url_of_domain, by decide, by decide, ⟨[], ".com".toList, by decide⟩,
    by decide, by decide, hpub, ?_⟩
  intro schedule n hmain
  rw [main_count _ _ hpub schedule n hmain]
  decide

theorem url_check_wider_than_extraction_witness :
    Producer.is_valid_url_ sample_url = true
      ∧ Spmc.main (unlines [sample_device, bad_port_url, sample_timestamp])
          [.producer, .consumer 0, .consumer 0, .producer, .consumer 0, .consumer 1]
          = some 0 :=
  ⟨url_check_wider_than_extraction.1 sample_url (by decide), by decide⟩

/-- The dot of the patterns does not match a carriage return: with one in the path the
first pattern of `get_domain` does not match, the domain is empty, and the same line
fails `is_valid_url_`, so the producer pushes no record with such a url field. -/
theorem carriage_return_in_path :
    Consumer.get_domain "url: http://xxx.com/a\rb".toList = []
      ∧ Producer.is_valid_url_ "url: http://xxx.com/a\rb".toList = false := by
  decide
